import Mathlib

/-!
Verification of the work-stealing task scheduler core.

This file gives a shallow embedding, in Lean 4, of the scheduler components
of the repository: the generation-tagged job tables (`job.c` and the packed
64-bit-handle variant), the Chase-Lev style work-stealing deques (the
`wc_deque_*` operations and the `WorkStealingQueue` variant), the dependency
release step of task completion (`wc_task_complete_internal`), and the
NUMA-aware victim selection of the thread pool (`wc_pool_select_*`).

Machine integers are modelled as `Nat` (or `Int` for C signed `LONG`
values), with an explicit `% 2^64` (or `% 2^32`) wherever the C computation
can wrap.  Loops whose termination depends on concurrent input or on the
PRNG are modelled with an explicit fuel parameter and return `Option`;
`none` means the loop did not exit within the given number of iterations.
The CAS outcome of the owner-vs-thief race in `pop_bottom` is an explicit
oracle argument (`topAtCas`): it is the value the CAS instruction observes.
The one-element owner/thief race itself is settled with a small-step
interleaving machine that enumerates every schedule of the two operations.
-/

/-! ## Packed 64-bit job handles (part_012) -/

/-- Embedding of `make_job_handle` (part_012): the handle value is
`((u64) generation << 32) | index`.  Arguments are C `u32` values, so
callers are below `2^32`. -/
def make_job_handle (index generation : Nat) : Nat :=
  (generation <<< 32) ||| index

/-- Embedding of `unpack_job_handle` (part_012):
`index = value & 0xFFFFFFFF`, `generation = value >> 32`. -/
def unpack_job_handle (value : Nat) : Nat × Nat :=
  (value &&& 0xFFFFFFFF, value >>> 32)

/-- Embedding of `is_valid_handle` (part_012): `handle.value != 0`. -/
def is_valid_handle (value : Nat) : Bool :=
  value ≠ 0

/-- C9: packing a 32-bit slot index and a 32-bit generation into a handle
round-trips exactly (`unpack_job_handle` recovers both fields of
`make_job_handle`), and the packed handle is the zero (invalid) handle
exactly when both the index and the generation are zero. -/
theorem job_handle_roundtrip (i g : Nat) (hi : i < 2 ^ 32) (hg : g < 2 ^ 32) :
    unpack_job_handle (make_job_handle i g) = (i, g) ∧
    (make_job_handle i g = 0 ↔ i = 0 ∧ g = 0) := by
  clear hg
  unfold make_job_handle unpack_job_handle
  refine ⟨?_, ?_, ?_⟩
  · have hidx : ((g <<< 32) ||| i) &&& 0xFFFFFFFF = i := by
      apply Nat.eq_of_testBit_eq
      intro k
      simp only [Nat.testBit_and, Nat.testBit_lor, Nat.testBit_shiftLeft]
      rcases lt_or_ge k 32 with hk | hk
      · have h1 : Nat.testBit 0xFFFFFFFF k = true := by
          rw [show (0xFFFFFFFF : Nat) = 2 ^ 32 - 1 by norm_num,
            Nat.testBit_two_pow_sub_one]
          simp [hk]
        simp [h1, Nat.not_le.mpr hk]
      · have h1 : Nat.testBit 0xFFFFFFFF k = false := by
          rw [show (0xFFFFFFFF : Nat) = 2 ^ 32 - 1 by norm_num,
            Nat.testBit_two_pow_sub_one]
          simp [Nat.not_lt.mpr hk]
        have h2 : i.testBit k = false :=
          Nat.testBit_lt_two_pow
            (lt_of_lt_of_le hi (Nat.pow_le_pow_right (by norm_num) hk))
        simp [h1, h2]
    have hgen : ((g <<< 32) ||| i) >>> 32 = g := by
      apply Nat.eq_of_testBit_eq
      intro k
      simp only [Nat.testBit_shiftRight, Nat.testBit_lor, Nat.testBit_shiftLeft]
      have h2 : i.testBit (32 + k) = false :=
        Nat.testBit_lt_two_pow
          (lt_of_lt_of_le hi (Nat.pow_le_pow_right (by norm_num) (by omega)))
      simp [h2]
    simp [hidx, hgen]
  · intro h
    have hb : ∀ k, (g <<< 32).testBit k = false ∧ i.testBit k = false := by
      intro k
      have := congrArg (fun x => Nat.testBit x k) h
      simp only [Nat.testBit_lor, Nat.zero_testBit, Bool.or_eq_false_iff] at this
      exact this
    constructor
    · exact Nat.eq_of_testBit_eq fun k => by simp [(hb k).2]
    · have hz : g <<< 32 = 0 := Nat.eq_of_testBit_eq fun k => by simp [(hb k).1]
      rw [Nat.shiftLeft_eq] at hz
      omega
  · rintro ⟨h1, h2⟩
    simp [h1, h2]

/-- Concrete instance of `job_handle_roundtrip` at index 5, generation 7. -/
theorem job_handle_roundtrip_witness :
    5 < 2 ^ 32 ∧ 7 < 2 ^ 32 ∧
    (unpack_job_handle (make_job_handle 5 7) = (5, 7) ∧
      (make_job_handle 5 7 = 0 ↔ 5 = 0 ∧ 7 = 0)) :=
  ⟨by norm_num, by norm_num,
    job_handle_roundtrip 5 7 (by norm_num) (by norm_num)⟩

/-! ## Chase-Lev deque (part_014, `wc_deque_*`)

Indices `top` and `bottom` are C `size_t` values: arithmetic is mod `2^64`.
The ring is a total function from (already masked) array positions to
optional task ids; masking is the C `index & (capacity - 1)`.  The
statistics counters of the C struct are not modelled (no claim mentions
them).  The owner's CAS on `top` races with thieves; the value the CAS
instruction observes is passed in as the oracle argument `topAtCas`
(equal to the value read earlier if no thief interfered). -/

def U64 : Nat := 2 ^ 64

inductive WC_DequeResult
  | SUCCESS
  | RESIZE_NEEDED
  | ABORTED
deriving DecidableEq, Repr

structure WC_Deque where
  top : Nat
  bottom : Nat
  capacity : Nat
  elements : Nat → Option Nat

/-- Embedding of `wc_deque_push_bottom` (part_014).  Note the source stores
the task at `ring[bottom & (capacity-1)]` and advances `bottom` BEFORE the
capacity check, which only decides the returned status. -/
def wc_deque_push_bottom (d : WC_Deque) (task : Nat) : WC_DequeResult × WC_Deque :=
  let b := d.bottom
  let stored : WC_Deque := { d with
    elements := fun j =>
      if j = b &&& (d.capacity - 1) then some task else d.elements j,
    bottom := (b + 1) % U64 }
  if d.capacity ≤ (b + 1 + (U64 - d.top)) % U64 then
    (WC_DequeResult.RESIZE_NEEDED, stored)
  else
    (WC_DequeResult.SUCCESS, stored)

/-- Embedding of `wc_deque_pop_bottom` (part_014).  The owner tentatively
stores `b = bottom - 1` (size_t wrap), fences, reads `top`, and on the
last-element case CASes `top` from `t` to `t + 1`; `topAtCas` is the value
of `top` the CAS observes (a thief may have advanced it).  Each branch
returns the net deque state: the tentative store of `b` composed with the
branch's restore of `bottom` (`b + 1` in the empty and last-element cases,
`b` itself otherwise). -/
def wc_deque_pop_bottom (d : WC_Deque) (topAtCas : Nat) : Option Nat × WC_Deque :=
  let b := (d.bottom + (U64 - 1)) % U64
  if d.top ≤ b then
    if d.top = b then
      if topAtCas = d.top then
        (d.elements (b &&& (d.capacity - 1)),
          { d with top := (d.top + 1) % U64, bottom := (b + 1) % U64 })
      else
        (none, { d with top := topAtCas, bottom := (b + 1) % U64 })
    else
      (d.elements (b &&& (d.capacity - 1)), { d with bottom := b })
  else
    (none, { d with bottom := (b + 1) % U64 })

/-! ## Work-stealing queue (part_012, `deque_*`)

`top` and `bottom` are C `LONG` (signed) values, modelled as `Int`; ring
indexing `b & (JOB_QUEUE_SIZE - 1)` on a two's-complement `LONG` agrees
with the Euclidean remainder `b % 256` for every `b`, which is what `%`
denotes on `Int` in Lean. -/

def JOB_QUEUE_SIZE : Int := 256

structure WorkStealingQueue where
  top : Int
  bottom : Int
  jobs : Int → Option Nat

/-- Embedding of `deque_push_bottom` (part_012): fails (returns `false`)
without touching the queue when `bottom - top >= JOB_QUEUE_SIZE`. -/
def deque_push_bottom (q : WorkStealingQueue) (job : Nat) : Bool × WorkStealingQueue :=
  let b := q.bottom
  let t := q.top
  if JOB_QUEUE_SIZE ≤ b - t then
    (false, q)
  else
    (true, { q with
      jobs := fun j => if j = b % 256 then some job else q.jobs j,
      bottom := b + 1 })



/-- Case equation for `wc_deque_pop_bottom`: the deque was empty
(`top > bottom - 1`); the owner restores `bottom` and returns none. -/
theorem wc_deque_pop_bottom_eq_empty (d : WC_Deque) (c : Nat)
    (h : ¬ d.top ≤ (d.bottom + (U64 - 1)) % U64) :
    wc_deque_pop_bottom d c =
      (none, { d with bottom := ((d.bottom + (U64 - 1)) % U64 + 1) % U64 }) := by
  unfold wc_deque_pop_bottom
  rw [if_neg h]

/-- Case equation for `wc_deque_pop_bottom`: more than one element left
(`top < bottom - 1`). -/
theorem wc_deque_pop_bottom_eq_nonlast (d : WC_Deque) (c : Nat)
    (hle : d.top ≤ (d.bottom + (U64 - 1)) % U64)
    (hne : ¬ d.top = (d.bottom + (U64 - 1)) % U64) :
    wc_deque_pop_bottom d c =
      (d.elements (((d.bottom + (U64 - 1)) % U64) &&& (d.capacity - 1)),
        { d with bottom := (d.bottom + (U64 - 1)) % U64 }) := by
  unfold wc_deque_pop_bottom
  rw [if_pos hle, if_neg hne]

/-- Case equation for `wc_deque_pop_bottom`: last element, owner CAS wins. -/
theorem wc_deque_pop_bottom_eq_last_won (d : WC_Deque) (c : Nat)
    (heq : d.top = (d.bottom + (U64 - 1)) % U64) (hcas : c = d.top) :
    wc_deque_pop_bottom d c =
      (d.elements (((d.bottom + (U64 - 1)) % U64) &&& (d.capacity - 1)),
        { d with top := (d.top + 1) % U64,
                 bottom := ((d.bottom + (U64 - 1)) % U64 + 1) % U64 }) := by
  unfold wc_deque_pop_bottom
  rw [if_pos (le_of_eq heq), if_pos heq, if_pos hcas]

/-- Case equation for `wc_deque_pop_bottom`: last element, a thief won the
CAS; the owner restores `bottom` and returns none. -/
theorem wc_deque_pop_bottom_eq_last_lost (d : WC_Deque) (c : Nat)
    (heq : d.top = (d.bottom + (U64 - 1)) % U64) (hcas : ¬ c = d.top) :
    wc_deque_pop_bottom d c =
      (none, { d with top := c,
                      bottom := ((d.bottom + (U64 - 1)) % U64 + 1) % U64 }) := by
  unfold wc_deque_pop_bottom
  rw [if_pos (le_of_eq heq), if_pos heq, if_neg hcas]

/-- Empty case, polished: on a valid owner state the final deque equals the
initial one (the restored `bottom` is the pre-call value), and that value
equals `top`. -/
theorem pop_spec_empty (d : WC_Deque) (c : Nat)
    (hinv : d.top ≤ d.bottom) (hb : d.bottom < U64)
    (hgt : d.top > (d.bottom + (U64 - 1)) % U64) :
    wc_deque_pop_bottom d c = (none, d) ∧ d.bottom = d.top := by
  have hb2 : d.bottom < 2 ^ 64 := hb
  have hb1 : 1 ≤ d.bottom := by
    by_contra hc
    have h0 : d.bottom = 0 := by omega
    have he : (d.bottom + (U64 - 1)) % U64 = 2 ^ 64 - 1 := by
      rw [h0]
      show (0 + (2 ^ 64 - 1)) % 2 ^ 64 = 2 ^ 64 - 1
      norm_num
    rw [he] at hgt
    omega
  have hbdec : (d.bottom + (U64 - 1)) % U64 = d.bottom - 1 := by
    show (d.bottom + (2 ^ 64 - 1)) % 2 ^ 64 = d.bottom - 1
    omega
  rw [hbdec] at hgt
  have hnle : ¬ d.top ≤ (d.bottom + (U64 - 1)) % U64 := by
    rw [hbdec]
    omega
  refine ⟨?_, by omega⟩
  rw [wc_deque_pop_bottom_eq_empty d c hnle]
  have hx : ((d.bottom + (U64 - 1)) % U64 + 1) % U64 = d.bottom := by
    rw [hbdec]
    show (d.bottom - 1 + 1) % 2 ^ 64 = d.bottom
    omega
  rw [hx]

/-- Non-last case, polished: the returned task is `ring[b mod N]` for the
decremented bottom `b`, which stays stored in `bottom`. -/
theorem pop_spec_nonlast (d : WC_Deque) (c : Nat) (k : Nat)
    (hcap : d.capacity = 2 ^ k)
    (hlt : d.top < (d.bottom + (U64 - 1)) % U64) :
    wc_deque_pop_bottom d c =
      (d.elements (((d.bottom + (U64 - 1)) % U64) % d.capacity),
        { d with bottom := (d.bottom + (U64 - 1)) % U64 }) := by
  have hmask : ∀ x : Nat, x &&& (d.capacity - 1) = x % d.capacity := by
    intro x
    rw [hcap]
    exact Nat.and_pow_two_sub_one_eq_mod x k
  rw [wc_deque_pop_bottom_eq_nonlast d c (le_of_lt hlt) (ne_of_lt hlt), hmask]

/-- Last-element case with a winning owner CAS, polished: the task is
returned and both `top` and `bottom` end at `t + 1`. -/
theorem pop_spec_last_won (d : WC_Deque) (c : Nat) (k : Nat)
    (hinv : d.top ≤ d.bottom) (hb : d.bottom < U64) (hcap : d.capacity = 2 ^ k)
    (heq : d.top = (d.bottom + (U64 - 1)) % U64) (hcas : c = d.top) :
    wc_deque_pop_bottom d c =
      (d.elements (((d.bottom + (U64 - 1)) % U64) % d.capacity),
        { d with top := d.top + 1, bottom := d.top + 1 }) := by
  have hb2 : d.bottom < 2 ^ 64 := hb
  have hb1 : 1 ≤ d.bottom := by
    by_contra hc
    have h0 : d.bottom = 0 := by omega
    have he : (d.bottom + (U64 - 1)) % U64 = 2 ^ 64 - 1 := by
      rw [h0]
      show (0 + (2 ^ 64 - 1)) % 2 ^ 64 = 2 ^ 64 - 1
      norm_num
    rw [he] at heq
    omega
  have hbdec : (d.bottom + (U64 - 1)) % U64 = d.bottom - 1 := by
    show (d.bottom + (2 ^ 64 - 1)) % 2 ^ 64 = d.bottom - 1
    omega
  have hmask : ∀ x : Nat, x &&& (d.capacity - 1) = x % d.capacity := by
    intro x
    rw [hcap]
    exact Nat.and_pow_two_sub_one_eq_mod x k
  rw [wc_deque_pop_bottom_eq_last_won d c heq hcas, hmask]
  have h1 : (d.top + 1) % U64 = d.top + 1 := by
    rw [hbdec] at heq
    show (d.top + 1) % 2 ^ 64 = d.top + 1
    omega
  have h2 : ((d.bottom + (U64 - 1)) % U64 + 1) % U64 = d.top + 1 := by
    rw [hbdec] at heq ⊢
    show (d.bottom - 1 + 1) % 2 ^ 64 = d.top + 1
    omega
  rw [h1, h2]

/-- Last-element case with a losing owner CAS, polished: none is returned
and `bottom` ends at `t + 1`. -/
theorem pop_spec_last_lost (d : WC_Deque) (c : Nat)
    (hinv : d.top ≤ d.bottom) (hb : d.bottom < U64)
    (heq : d.top = (d.bottom + (U64 - 1)) % U64) (hcas : ¬ c = d.top) :
    wc_deque_pop_bottom d c =
      (none, { d with top := c, bottom := d.top + 1 }) := by
  have hb2 : d.bottom < 2 ^ 64 := hb
  have hb1 : 1 ≤ d.bottom := by
    by_contra hc
    have h0 : d.bottom = 0 := by omega
    have he : (d.bottom + (U64 - 1)) % U64 = 2 ^ 64 - 1 := by
      rw [h0]
      show (0 + (2 ^ 64 - 1)) % 2 ^ 64 = 2 ^ 64 - 1
      norm_num
    rw [he] at heq
    omega
  have hbdec : (d.bottom + (U64 - 1)) % U64 = d.bottom - 1 := by
    show (d.bottom + (2 ^ 64 - 1)) % 2 ^ 64 = d.bottom - 1
    omega
  rw [wc_deque_pop_bottom_eq_last_lost d c heq hcas]
  have h2 : ((d.bottom + (U64 - 1)) % U64 + 1) % U64 = d.top + 1 := by
    rw [hbdec] at heq ⊢
    show (d.bottom - 1 + 1) % 2 ^ 64 = d.top + 1
    omega
  rw [h2]

/-- C1: on any deque state satisfying the owner invariant `top ≤ bottom`
(indices below `2^64`, capacity a power of two), `wc_deque_pop_bottom`
follows the specified owner algorithm.  Writing `b` for the tentatively
decremented bottom and `t` for the top value read after the fence: if
`t > b` the call returns none and restores `bottom` to its pre-call value
(the final state equals the initial one), and that pre-call value equals
`t`; if `t < b` it returns `ring[b mod N]`; if `t = b` (last element) it
CASes `top` from `t` to `t + 1`, returning the element exactly when the
CAS succeeds (`topAtCas = t`) and none when a thief won, and in both
last-element outcomes `bottom` ends equal to `t + 1`. -/
theorem wc_deque_pop_bottom_owner_algorithm
    (d : WC_Deque) (topAtCas : Nat) (k : Nat)
    (hinv : d.top ≤ d.bottom) (hb : d.bottom < U64) (hcap : d.capacity = 2 ^ k) :
    (d.top > (d.bottom + (U64 - 1)) % U64 →
      wc_deque_pop_bottom d topAtCas = (none, d) ∧ d.bottom = d.top) ∧
    (d.top < (d.bottom + (U64 - 1)) % U64 →
      wc_deque_pop_bottom d topAtCas =
        (d.elements (((d.bottom + (U64 - 1)) % U64) % d.capacity),
          { d with bottom := (d.bottom + (U64 - 1)) % U64 })) ∧
    (d.top = (d.bottom + (U64 - 1)) % U64 →
      (topAtCas = d.top →
        wc_deque_pop_bottom d topAtCas =
          (d.elements (((d.bottom + (U64 - 1)) % U64) % d.capacity),
            { d with top := d.top + 1, bottom := d.top + 1 })) ∧
      (topAtCas ≠ d.top →
        wc_deque_pop_bottom d topAtCas =
          (none, { d with top := topAtCas, bottom := d.top + 1 }))) :=
  ⟨fun hgt => pop_spec_empty d topAtCas hinv hb hgt,
   fun hlt => pop_spec_nonlast d topAtCas k hcap hlt,
   fun heq =>
     ⟨fun hcas => pop_spec_last_won d topAtCas k hinv hb hcap heq hcas,
      fun hcas => pop_spec_last_lost d topAtCas hinv hb heq hcas⟩⟩

/-- Concrete two-element deque used to witness the C1 theorem. -/
def c1exampleDeque : WC_Deque :=
  { top := 0, bottom := 2, capacity := 64,
    elements := fun j => if j = 0 then some 10 else if j = 1 then some 11 else none }

/-- Concrete instance of `wc_deque_pop_bottom_owner_algorithm`: popping the
two-element example deque takes the `t < b` branch. -/
theorem wc_deque_pop_bottom_owner_algorithm_witness :
    wc_deque_pop_bottom c1exampleDeque 0 =
      (c1exampleDeque.elements
          (((c1exampleDeque.bottom + (U64 - 1)) % U64) % c1exampleDeque.capacity),
        { c1exampleDeque with
            bottom := (c1exampleDeque.bottom + (U64 - 1)) % U64 }) :=
  (wc_deque_pop_bottom_owner_algorithm c1exampleDeque 0 6
      (by norm_num [c1exampleDeque])
      (by norm_num [c1exampleDeque, U64])
      (by norm_num [c1exampleDeque])).2.1
    (by norm_num [c1exampleDeque, U64])

/-- Concrete full deque (64 elements in a capacity-64 ring, `bottom - top`
equal to the capacity) used to refute the C6 claim for part_014. -/
def c6FullDeque : WC_Deque :=
  { top := 0, bottom := 64, capacity := 64,
    elements := fun j => if j < 64 then some j else none }

/-- C6 counterexample: on a deque whose size equals its capacity,
`wc_deque_push_bottom` (part_014) does NOT leave the deque unchanged: it
reports `RESIZE_NEEDED` only after it has already stored the new task at
`ring[bottom mod N] = ring[top mod N]` (overwriting the oldest queued
element, here `some 0`) and advanced `bottom`. -/
theorem wc_deque_push_bottom_full_overwrites :
    c6FullDeque.bottom - c6FullDeque.top = c6FullDeque.capacity ∧
    (wc_deque_push_bottom c6FullDeque 100).1 = WC_DequeResult.RESIZE_NEEDED ∧
    (wc_deque_push_bottom c6FullDeque 100).2.bottom = 65 ∧
    (wc_deque_push_bottom c6FullDeque 100).2.elements 0 = some 100 ∧
    c6FullDeque.elements 0 = some 0 := by
  refine ⟨rfl, ?_, ?_, ?_, rfl⟩ <;>
    norm_num [wc_deque_push_bottom, c6FullDeque, U64,
      show (64 &&& 63 : Nat) = 0 from rfl]

/-- C6 amended, proved for the part_012 queue: when `bottom - top` equals
the capacity `JOB_QUEUE_SIZE`, `deque_push_bottom` reports failure and
returns the queue unchanged. -/
theorem deque_push_bottom_full_unchanged (q : WorkStealingQueue) (job : Nat)
    (hfull : q.bottom - q.top = JOB_QUEUE_SIZE) :
    deque_push_bottom q job = (false, q) := by
  unfold deque_push_bottom
  rw [if_pos (le_of_eq hfull.symm)]

/-- Concrete full part_012 queue used to witness the amended C6 theorem. -/
def c6FullQueue : WorkStealingQueue :=
  { top := 0, bottom := 256, jobs := fun _ => some 1 }

/-- Concrete instance of `deque_push_bottom_full_unchanged`. -/
theorem deque_push_bottom_full_unchanged_witness :
    deque_push_bottom c6FullQueue 9 = (false, c6FullQueue) :=
  deque_push_bottom_full_unchanged c6FullQueue 9
    (by norm_num [c6FullQueue, JOB_QUEUE_SIZE])

/-! ## Generation-tagged job pool (part_012)

Slots carry a `u32` generation and an `allocated` flag; a packed handle
refers to slot `value & 0xFFFFFFFF` at generation `value >> 32`.
`free_head`/`free_tail` are C `LONG` cursors into the free-index ring.
The sequential embedding of the lock-free `job_alloc` CAS loop is its
uncontended first iteration: the CAS succeeds (no other thread moved
`free_head`), or the pool is exhausted and the loop exits before any CAS. -/

def MAX_JOB_COUNT : Nat := 4096

structure Job012 where
  func : Nat
  data : Nat
  unfinished_jobs : Int
  parent_index : Nat
  generation : Nat
  flags : Nat
  allocated : Bool

structure JobPool012 where
  jobs : Nat → Job012
  free_indices : Nat → Nat
  free_head : Int
  free_tail : Int
  allocated_count : Int

/-- Embedding of `get_job_from_handle` (part_012): returns the slot index
when the handle is non-zero, in range, generation-matching and allocated;
`none` otherwise. -/
def get_job_from_handle (pool : JobPool012) (value : Nat) : Option Nat :=
  if is_valid_handle value then
    let index := (unpack_job_handle value).1
    let generation := (unpack_job_handle value).2
    if MAX_JOB_COUNT ≤ index then none
    else if (pool.jobs index).generation ≠ generation ∨
            (pool.jobs index).allocated = false then none
    else some index
  else none

/-- Embedding of `job_is_complete` (part_012): invalid or stale handles
report `true`; live handles report whether `unfinished_jobs == 0`. -/
def job_is_complete (pool : JobPool012) (value : Nat) : Bool :=
  match get_job_from_handle pool value with
  | none => true
  | some idx => decide ((pool.jobs idx).unfinished_jobs = 0)

/-- Embedding of `job_alloc` (part_012): pops a free index unless
`free_head >= free_tail` (exhaustion), in which case it returns the zero
(invalid) handle value without touching the pool. -/
def job_alloc (pool : JobPool012) : Nat × JobPool012 :=
  let head := pool.free_head
  let tail := pool.free_tail
  if tail ≤ head then
    (0, pool)
  else
    let idx := pool.free_indices ((head % 4096).toNat)
    let job := pool.jobs idx
    let pool1 : JobPool012 := { pool with
      free_head := head + 1,
      jobs := fun j => if j = idx then { job with allocated := true } else pool.jobs j,
      allocated_count := pool.allocated_count + 1 }
    (make_job_handle idx job.generation, pool1)

/-- C5 amended (proved part): on an exhausted pool (`free_head >= free_tail`)
`job_alloc` returns the reserved zero handle and leaves every slot — in
fact the whole pool — unmodified. -/
theorem job_alloc_exhausted (pool : JobPool012)
    (h : pool.free_tail ≤ pool.free_head) :
    job_alloc pool = (0, pool) := by
  unfold job_alloc
  rw [if_pos h]

/-- Concrete exhausted pool used to witness `job_alloc_exhausted`. -/
def c5ExhaustedPool : JobPool012 :=
  { jobs := fun _ =>
      { func := 0, data := 0, unfinished_jobs := 1, parent_index := 4096,
        generation := 3, flags := 0, allocated := true },
    free_indices := fun j => j,
    free_head := 4096, free_tail := 4096, allocated_count := 4096 }

/-- Concrete instance of `job_alloc_exhausted`. -/
theorem job_alloc_exhausted_witness :
    job_alloc c5ExhaustedPool = (0, c5ExhaustedPool) :=
  job_alloc_exhausted c5ExhaustedPool (by norm_num [c5ExhaustedPool])

/-! ## Job table with struct handles (`src/system/job.c`)

`g_jobs` is a table of `MAX_JOBS = 65536` slots, each a `WC_Job` plus a
`long` generation; slot 0 is reserved as invalid.  `job_schedule` allocates
from the wrapping counter `g_job_next_free` (`idx = (old % (MAX_JOBS-1)) + 1`).
Counters (`generation`, `next_free`, `childCnt`) stay far below `2^31` in
any run modelled here, so they are carried as `Nat`; `depLeft` is a C
`long` carried as `Int` (the final decrement may be observed at zero).
The constant `finish_callback` field (always `job_finish_callback`) is not
modelled.  A ghost field `linked` on the result records whether the
dependency-link branch incremented `depLeft`; it adds no behaviour. -/

def MAX_JOBS : Nat := 65536

def WC_MAX_CHILDREN : Nat := 6

structure WC_Job where
  name : Nat
  func : Nat
  data : Nat
  depLeft : Int
  childIdx : Nat → Nat
  childCnt : Nat

structure JobSlot where
  job : WC_Job
  generation : Nat

structure WCJobHandle where
  idx : Nat
  gen : Nat
deriving DecidableEq, Repr

structure JobCState where
  jobs : Nat → JobSlot
  next_free : Nat

structure ScheduleResult where
  state : JobCState
  handle : WCJobHandle
  pushed : Bool
  linked : Bool

/-- Pointwise slot update of the `g_jobs` table. -/
def setSlot (s : JobCState) (i : Nat) (sl : JobSlot) : JobCState :=
  { s with jobs := fun j => if j = i then sl else s.jobs j }

/-- The slot index `job_schedule` claims from the wrapping allocation
counter: `(g_job_next_free++ % (MAX_JOBS - 1)) + 1` (slot 0 stays invalid). -/
def scheduleIdx (s : JobCState) : Nat :=
  (s.next_free % (MAX_JOBS - 1)) + 1

/-- The table after `job_schedule` has advanced the counter, bumped the
claimed slot's generation and initialised its fields (`depLeft = 1`,
`childCnt = 0`). -/
def scheduleInit (s : JobCState) (nm fn dt : Nat) : JobCState :=
  setSlot { s with next_free := s.next_free + 1 } (scheduleIdx s)
    { generation := (s.jobs (scheduleIdx s)).generation + 1,
      job := { name := nm, func := fn, data := dt, depLeft := 1,
               childIdx := (s.jobs (scheduleIdx s)).job.childIdx,
               childCnt := 0 } }

/-- Embedding of `job_schedule` (job.c).  Steps, in source order: claim
`idx = (next_free % (MAX_JOBS-1)) + 1` and advance the counter; bump the
slot generation; initialise the slot fields with `depLeft = 1` and
`childCnt = 0` (`scheduleInit`); if `after` is non-zero and its slot
generation matches, reserve a child index on the parent
(`InterlockedIncrement(childCnt) - 1`) and, if below `WC_MAX_CHILDREN`,
record the link and increment `depLeft`, otherwise roll `childCnt` back;
finally decrement `depLeft` once and push (record `pushed = true`)
exactly when the decrement returned zero. -/
def job_schedule (s : JobCState) (nm fn dt : Nat) (after : WCJobHandle) : ScheduleResult :=
  let idx := scheduleIdx s
  let gen1 := (s.jobs idx).generation + 1
  let s2 := scheduleInit s nm fn dt
  if after.idx ≠ 0 ∧ (s2.jobs after.idx).generation = after.gen then
    let parent := s2.jobs after.idx
    let child_count := parent.job.childCnt
    if child_count < WC_MAX_CHILDREN then
      let newChildIdx := fun i =>
        if i = child_count then idx else parent.job.childIdx i
      let s3 := setSlot s2 after.idx
        { parent with job :=
            { parent.job with childCnt := child_count + 1, childIdx := newChildIdx } }
      let slotI := s3.jobs idx
      let s4 := setSlot s3 idx
        { slotI with job := { slotI.job with depLeft := slotI.job.depLeft + 1 } }
      let slotJ := s4.jobs idx
      let s5 := setSlot s4 idx
        { slotJ with job := { slotJ.job with depLeft := slotJ.job.depLeft - 1 } }
      { state := s5, handle := ⟨idx, gen1⟩,
        pushed := decide (slotJ.job.depLeft - 1 = 0), linked := true }
    else
      let s3 := setSlot s2 after.idx
        { parent with job := { parent.job with childCnt := child_count + 1 } }
      let parent1 := s3.jobs after.idx
      let s4 := setSlot s3 after.idx
        { parent1 with job :=
            { parent1.job with childCnt := parent1.job.childCnt - 1 } }
      let slotJ := s4.jobs idx
      let s5 := setSlot s4 idx
        { slotJ with job := { slotJ.job with depLeft := slotJ.job.depLeft - 1 } }
      { state := s5, handle := ⟨idx, gen1⟩,
        pushed := decide (slotJ.job.depLeft - 1 = 0), linked := false }
  else
    let slotJ := s2.jobs idx
    let s5 := setSlot s2 idx
      { slotJ with job := { slotJ.job with depLeft := slotJ.job.depLeft - 1 } }
    { state := s5, handle := ⟨idx, gen1⟩,
      pushed := decide (slotJ.job.depLeft - 1 = 0), linked := false }

/-- The link condition of `job_schedule`, read off the pre-call state.
When the `after` slot is distinct from the freshly allocated slot this is
exactly the condition under which the source records the link and
increments `depLeft`: non-zero handle, matching generation, and room in
the parent's child array. -/
def schedule_links (s : JobCState) (after : WCJobHandle) : Bool :=
  after.idx ≠ 0 ∧ (s.jobs after.idx).generation = after.gen ∧
    (s.jobs after.idx).job.childCnt < WC_MAX_CHILDREN

theorem setSlot_jobs_self (s : JobCState) (i : Nat) (sl : JobSlot) :
    (setSlot s i sl).jobs i = sl := by
  simp [setSlot]

theorem setSlot_jobs_ne (s : JobCState) (i j : Nat) (sl : JobSlot) (h : j ≠ i) :
    (setSlot s i sl).jobs j = s.jobs j := by
  simp [setSlot, h]

theorem scheduleInit_jobs_ne (s : JobCState) (nm fn dt : Nat) (j : Nat)
    (h : j ≠ scheduleIdx s) :
    (scheduleInit s nm fn dt).jobs j = s.jobs j := by
  unfold scheduleInit
  rw [setSlot_jobs_ne _ _ _ _ h]

theorem scheduleInit_jobs_idx (s : JobCState) (nm fn dt : Nat) :
    (scheduleInit s nm fn dt).jobs (scheduleIdx s) =
      { generation := (s.jobs (scheduleIdx s)).generation + 1,
        job := { name := nm, func := fn, data := dt, depLeft := 1,
                 childIdx := (s.jobs (scheduleIdx s)).job.childIdx,
                 childCnt := 0 } } := by
  unfold scheduleInit
  rw [setSlot_jobs_self]

/-- Linked branch of `job_schedule`: the final decrement leaves
`depLeft = 1` (it was incremented to 2 by the link). -/
theorem sched_linked_depLeft (s : JobCState) (nm fn dt : Nat) (after : WCJobHandle)
    (hsep : after.idx ≠ scheduleIdx s)
    (h0 : after.idx ≠ 0) (hg : (s.jobs after.idx).generation = after.gen)
    (hroom : (s.jobs after.idx).job.childCnt < WC_MAX_CHILDREN) :
    ((job_schedule s nm fn dt after).state.jobs (scheduleIdx s)).job.depLeft = 1 := by
  have hinit := scheduleInit_jobs_ne s nm fn dt after.idx hsep
  have hsep2 : scheduleIdx s ≠ after.idx := Ne.symm hsep
  unfold job_schedule
  rw [if_pos ⟨h0, by rw [hinit]; exact hg⟩]
  rw [if_pos (by rw [hinit]; exact hroom)]
  simp only [setSlot_jobs_self, setSlot_jobs_ne _ after.idx (scheduleIdx s) _ hsep2,
    scheduleInit_jobs_idx]
  decide

/-- Linked branch of `job_schedule`: the job is not pushed (the final
decrement returned 1, not 0). -/
theorem sched_linked_pushed (s : JobCState) (nm fn dt : Nat) (after : WCJobHandle)
    (hsep : after.idx ≠ scheduleIdx s)
    (h0 : after.idx ≠ 0) (hg : (s.jobs after.idx).generation = after.gen)
    (hroom : (s.jobs after.idx).job.childCnt < WC_MAX_CHILDREN) :
    (job_schedule s nm fn dt after).pushed = false := by
  have hinit := scheduleInit_jobs_ne s nm fn dt after.idx hsep
  have hsep2 : scheduleIdx s ≠ after.idx := Ne.symm hsep
  unfold job_schedule
  rw [if_pos ⟨h0, by rw [hinit]; exact hg⟩]
  rw [if_pos (by rw [hinit]; exact hroom)]
  simp only [setSlot_jobs_self, setSlot_jobs_ne _ after.idx (scheduleIdx s) _ hsep2,
    scheduleInit_jobs_idx]
  decide

/-- Child-array-full branch of `job_schedule`: no link is recorded and the
final decrement leaves `depLeft = 0`. -/
theorem sched_noroom_depLeft (s : JobCState) (nm fn dt : Nat) (after : WCJobHandle)
    (hsep : after.idx ≠ scheduleIdx s)
    (h0 : after.idx ≠ 0) (hg : (s.jobs after.idx).generation = after.gen)
    (hroom : ¬ (s.jobs after.idx).job.childCnt < WC_MAX_CHILDREN) :
    ((job_schedule s nm fn dt after).state.jobs (scheduleIdx s)).job.depLeft = 0 := by
  have hinit := scheduleInit_jobs_ne s nm fn dt after.idx hsep
  have hsep2 : scheduleIdx s ≠ after.idx := Ne.symm hsep
  unfold job_schedule
  rw [if_pos ⟨h0, by rw [hinit]; exact hg⟩]
  rw [if_neg (by rw [hinit]; exact hroom)]
  simp only [setSlot_jobs_self, setSlot_jobs_ne _ after.idx (scheduleIdx s) _ hsep2,
    scheduleInit_jobs_idx]
  decide

/-- Child-array-full branch of `job_schedule`: the job is pushed. -/
theorem sched_noroom_pushed (s : JobCState) (nm fn dt : Nat) (after : WCJobHandle)
    (hsep : after.idx ≠ scheduleIdx s)
    (h0 : after.idx ≠ 0) (hg : (s.jobs after.idx).generation = after.gen)
    (hroom : ¬ (s.jobs after.idx).job.childCnt < WC_MAX_CHILDREN) :
    (job_schedule s nm fn dt after).pushed = true := by
  have hinit := scheduleInit_jobs_ne s nm fn dt after.idx hsep
  have hsep2 : scheduleIdx s ≠ after.idx := Ne.symm hsep
  unfold job_schedule
  rw [if_pos ⟨h0, by rw [hinit]; exact hg⟩]
  rw [if_neg (by rw [hinit]; exact hroom)]
  simp only [setSlot_jobs_self, setSlot_jobs_ne _ after.idx (scheduleIdx s) _ hsep2,
    scheduleInit_jobs_idx]
  decide

/-- No-dependency branch of `job_schedule` (zero or stale `after`): the
final decrement leaves `depLeft = 0`. -/
theorem sched_nolink_depLeft (s : JobCState) (nm fn dt : Nat) (after : WCJobHandle)
    (hsep : after.idx ≠ scheduleIdx s)
    (hnc : ¬ (after.idx ≠ 0 ∧ (s.jobs after.idx).generation = after.gen)) :
    ((job_schedule s nm fn dt after).state.jobs (scheduleIdx s)).job.depLeft = 0 := by
  have hinit := scheduleInit_jobs_ne s nm fn dt after.idx hsep
  unfold job_schedule
  rw [if_neg (fun hc => hnc ⟨hc.1, by rw [hinit] at hc; exact hc.2⟩)]
  simp only [setSlot_jobs_self, scheduleInit_jobs_idx]
  decide

/-- No-dependency branch of `job_schedule`: the job is pushed. -/
theorem sched_nolink_pushed (s : JobCState) (nm fn dt : Nat) (after : WCJobHandle)
    (hsep : after.idx ≠ scheduleIdx s)
    (hnc : ¬ (after.idx ≠ 0 ∧ (s.jobs after.idx).generation = after.gen)) :
    (job_schedule s nm fn dt after).pushed = true := by
  have hinit := scheduleInit_jobs_ne s nm fn dt after.idx hsep
  unfold job_schedule
  rw [if_neg (fun hc => hnc ⟨hc.1, by rw [hinit] at hc; exact hc.2⟩)]
  simp only [scheduleInit_jobs_idx]
  decide

/-- C4: `job_schedule` initialises the new job's dependency counter to 1,
increments it exactly when a valid (non-none, generation-matching) `after`
handle with room in its child array is linked, and decrements it once at
the end: when the link happened the counter ends at 1 and the job is not
pushed; when no link happened the final decrement reaches 0 and the job
is pushed.  In particular the job is pushed onto the caller's deque if and
only if no dependency was linked.  (The hypothesis keeps the `after` slot
distinct from the freshly claimed slot, which holds for every genuinely
outstanding handle: allocation bumps the slot generation.) -/
theorem job_schedule_push_iff (s : JobCState) (nm fn dt : Nat) (after : WCJobHandle)
    (hsep : after.idx ≠ scheduleIdx s) :
    (schedule_links s after = true →
      ((job_schedule s nm fn dt after).state.jobs (scheduleIdx s)).job.depLeft = 1 ∧
      (job_schedule s nm fn dt after).pushed = false) ∧
    (schedule_links s after = false →
      ((job_schedule s nm fn dt after).state.jobs (scheduleIdx s)).job.depLeft = 0 ∧
      (job_schedule s nm fn dt after).pushed = true) ∧
    ((job_schedule s nm fn dt after).pushed = true ↔ schedule_links s after = false) := by
  have hlinked : schedule_links s after = true →
      ((job_schedule s nm fn dt after).state.jobs (scheduleIdx s)).job.depLeft = 1 ∧
      (job_schedule s nm fn dt after).pushed = false := by
    intro hl
    simp only [schedule_links, Bool.decide_and, Bool.and_eq_true, decide_eq_true_eq] at hl
    obtain ⟨h0, hg, hroom⟩ := hl
    exact ⟨sched_linked_depLeft s nm fn dt after hsep h0 hg hroom,
           sched_linked_pushed s nm fn dt after hsep h0 hg hroom⟩
  have hunlinked : schedule_links s after = false →
      ((job_schedule s nm fn dt after).state.jobs (scheduleIdx s)).job.depLeft = 0 ∧
      (job_schedule s nm fn dt after).pushed = true := by
    intro hl
    by_cases h0 : after.idx = 0
    · have hnc : ¬ (after.idx ≠ 0 ∧ (s.jobs after.idx).generation = after.gen) :=
        fun hc => hc.1 h0
      exact ⟨sched_nolink_depLeft s nm fn dt after hsep hnc,
             sched_nolink_pushed s nm fn dt after hsep hnc⟩
    · by_cases hg : (s.jobs after.idx).generation = after.gen
      · have hroom : ¬ (s.jobs after.idx).job.childCnt < WC_MAX_CHILDREN := by
          intro hr
          have : schedule_links s after = true := by
            simp [schedule_links, h0, hg, hr]
          rw [this] at hl
          exact absurd hl (by decide)
        exact ⟨sched_noroom_depLeft s nm fn dt after hsep h0 hg hroom,
               sched_noroom_pushed s nm fn dt after hsep h0 hg hroom⟩
      · have hnc : ¬ (after.idx ≠ 0 ∧ (s.jobs after.idx).generation = after.gen) :=
          fun hc => hg hc.2
        exact ⟨sched_nolink_depLeft s nm fn dt after hsep hnc,
               sched_nolink_pushed s nm fn dt after hsep hnc⟩
  refine ⟨hlinked, hunlinked, ?_⟩
  rcases Bool.eq_false_or_eq_true (schedule_links s after) with hl | hl
  · rw [hl]
    exact iff_of_false
      (fun hp => absurd (((hlinked hl).2).symm.trans hp) (by decide))
      (by decide)
  · rw [hl]
    exact iff_of_true ((hunlinked hl).2) rfl

/-- Fresh single-job table used to witness the C4 theorem. -/
def c4State : JobCState :=
  { jobs := fun _ =>
      { job := { name := 0, func := 0, data := 0, depLeft := 0,
                 childIdx := fun _ => 0, childCnt := 0 },
        generation := 0 },
    next_free := 1 }

/-- Concrete instance of `job_schedule_push_iff`: scheduling with a none
`after` handle on a fresh table. -/
theorem job_schedule_push_iff_witness :
    (schedule_links c4State ⟨0, 0⟩ = true →
      ((job_schedule c4State 1 2 3 ⟨0, 0⟩).state.jobs (scheduleIdx c4State)).job.depLeft = 1 ∧
      (job_schedule c4State 1 2 3 ⟨0, 0⟩).pushed = false) ∧
    (schedule_links c4State ⟨0, 0⟩ = false →
      ((job_schedule c4State 1 2 3 ⟨0, 0⟩).state.jobs (scheduleIdx c4State)).job.depLeft = 0 ∧
      (job_schedule c4State 1 2 3 ⟨0, 0⟩).pushed = true) ∧
    ((job_schedule c4State 1 2 3 ⟨0, 0⟩).pushed = true ↔
      schedule_links c4State ⟨0, 0⟩ = false) :=
  job_schedule_push_iff c4State 1 2 3 ⟨0, 0⟩ (by decide)

/-- Embedding of the spin loop of `job_wait` (job.c): while `depLeft > 0`,
run one round of helping (`fiber_execute_job` / `job_yield`), abstracted
as the state transformer `help`; `none` means the loop was still waiting
after `fuel` rounds. -/
def job_wait_loop (help : JobCState → JobCState) (idx : Nat) :
    Nat → JobCState → Option JobCState
  | 0, _ => none
  | fuel + 1, s =>
      if 0 < (s.jobs idx).job.depLeft then job_wait_loop help idx fuel (help s)
      else some s

/-- Embedding of `job_wait` (job.c): a zero handle returns at once; a
generation mismatch (stale handle) returns at once; otherwise the spin
loop runs. -/
def job_wait (help : JobCState → JobCState) (fuel : Nat) (s : JobCState)
    (h : WCJobHandle) : Option JobCState :=
  if h.idx = 0 then some s
  else if (s.jobs h.idx).generation ≠ h.gen then some s
  else job_wait_loop help h.idx fuel s

/-- C3: operations on a stale handle are success-equivalent no-ops.
`job_wait` (job.c) on a handle whose generation differs from the slot's
returns immediately — for every helper and even with zero fuel — with the
table unmodified; `job_is_complete` (part_012) on a handle whose
generation differs from the slot's reports `true`.  Neither touches the
slot's current occupant. -/
theorem stale_handle_operations_noop
    (help : JobCState → JobCState) (fuel : Nat) (s : JobCState) (h : WCJobHandle)
    (pool : JobPool012) (v : Nat)
    (hidx : h.idx ≠ 0) (hstale : (s.jobs h.idx).generation ≠ h.gen)
    (hstale2 : (pool.jobs (unpack_job_handle v).1).generation ≠
      (unpack_job_handle v).2) :
    job_wait help fuel s h = some s ∧ job_is_complete pool v = true := by
  constructor
  · unfold job_wait
    rw [if_neg hidx, if_pos hstale]
  · unfold job_is_complete get_job_from_handle
    by_cases hv : is_valid_handle v = true
    · rw [if_pos hv]
      by_cases hr : MAX_JOB_COUNT ≤ (unpack_job_handle v).1
      · rw [if_pos hr]
      · rw [if_neg hr, if_pos (Or.inl hstale2)]
    · rw [if_neg hv]

/-- Concrete instance of `stale_handle_operations_noop`: generation-5
handle against a generation-0 slot (job.c) and a generation-7 packed
handle against a generation-3 slot (part_012), with zero fuel. -/
theorem stale_handle_operations_noop_witness :
    job_wait id 0 c4State ⟨1, 5⟩ = some c4State ∧
    job_is_complete c5ExhaustedPool (make_job_handle 1 7) = true :=
  stale_handle_operations_noop id 0 c4State ⟨1, 5⟩ c5ExhaustedPool
    (make_job_handle 1 7) (by decide) (by decide) (by decide)

/-- Table in which every slot holds a live job (positive `depLeft`,
generation 7 matching outstanding handles) and the allocation counter
points at slot 2.  There is no free slot anywhere. -/
def c5AllLiveState : JobCState :=
  { jobs := fun _ =>
      { job := { name := 0, func := 0, data := 0, depLeft := 1,
                 childIdx := fun _ => 0, childCnt := 0 },
        generation := 7 },
    next_free := 1 }

/-- C5 counterexample: with every slot live (the table is exhausted),
`job_schedule` (job.c) does not return the none handle — it returns the
fresh handle (2, 8) — and it modifies the occupied slot 2, bumping the
generation out from under the outstanding handle (2, 7) whose job still
has `depLeft = 1`. -/
theorem job_schedule_reuses_live_slot :
    (c5AllLiveState.jobs 2).job.depLeft = 1 ∧
    (c5AllLiveState.jobs 2).generation = 7 ∧
    (job_schedule c5AllLiveState 0 0 0 ⟨0, 0⟩).handle = ⟨2, 8⟩ ∧
    ((job_schedule c5AllLiveState 0 0 0 ⟨0, 0⟩).state.jobs 2).generation = 8 := by
  refine ⟨rfl, rfl, ?_, ?_⟩ <;> decide

/-! ## Task dependency release (`src/system/task.c`)

`WC_Task` records are referred to by id; `outgoing_deps` is the list of
dependent task ids (the C `WC_Task**` array of length `outgoing_count`),
`incoming_deps` a `u64` counter (`fetch_sub` wraps mod `2^64`).  Groups
hold a `u64` `remaining_tasks` counter and an optional continuation id.
`wc_pool_submit_task` pushes a task to the current worker's deque (or,
failing that, a global queue); the embedding records each submission, in
call order, in the returned list of task ids.  The `auto_destroy` branch
of the source is an explicit no-op (the destroy call is commented out). -/

def WC_TASK_READY : Nat := 1

def WC_TASK_COMPLETED : Nat := 3

structure WCTask where
  state : Nat
  incoming_deps : Nat
  outgoing_deps : List Nat
  group : Option Nat

structure WCTaskGroup where
  remaining_tasks : Nat
  continuation : Option Nat
  auto_destroy : Bool

structure TaskTables where
  tasks : Nat → WCTask
  groups : Nat → WCTaskGroup

/-- Pointwise task update. -/
def setTask (t : TaskTables) (i : Nat) (tk : WCTask) : TaskTables :=
  { t with tasks := fun j => if j = i then tk else t.tasks j }

/-- The dependent-notification loop of `wc_task_complete_internal`: for
each dependent id, `remaining = fetch_sub(incoming_deps, 1) - 1` (u64
wrap); when `remaining = 0` the dependent is release-stored `READY` and
submitted.  The source performs the counter write and the state store as
two consecutive atomic operations on the same record; the embedding
applies their combined effect as one record update. -/
def completeLoop (t : TaskTables) (deps : List Nat) (subs : List Nat) :
    TaskTables × List Nat :=
  match deps with
  | [] => (t, subs)
  | d :: rest =>
      if ((t.tasks d).incoming_deps + (U64 - 1)) % U64 = 0 then
        completeLoop
          (setTask t d { t.tasks d with
            incoming_deps := ((t.tasks d).incoming_deps + (U64 - 1)) % U64,
            state := WC_TASK_READY })
          rest (subs ++ [d])
      else
        completeLoop
          (setTask t d { t.tasks d with
            incoming_deps := ((t.tasks d).incoming_deps + (U64 - 1)) % U64 })
          rest subs

/-- Pointwise group update. -/
def setGroup (t : TaskTables) (i : Nat) (gr : WCTaskGroup) : TaskTables :=
  { t with groups := fun j => if j = i then gr else t.groups j }

/-- The group step of `wc_task_complete_internal`: decrement
`remaining_tasks` (u64 wrap); at zero, submit the continuation if one is
set.  `auto_destroy` does nothing (the call is commented out in the
source). -/
def completeGroup (t : TaskTables) (g : Option Nat) (subs : List Nat) :
    TaskTables × List Nat :=
  match g with
  | none => (t, subs)
  | some gi =>
      let old := (t.groups gi).remaining_tasks
      let remaining := (old + (U64 - 1)) % U64
      let t1 := setGroup t gi { t.groups gi with remaining_tasks := remaining }
      if remaining = 0 then
        match (t1.groups gi).continuation with
        | some c => (t1, subs ++ [c])
        | none => (t1, subs)
      else
        (t1, subs)

/-- Embedding of `wc_task_complete_internal` (task.c): release-store
`COMPLETED`, walk the outgoing-dependency list decrementing each
dependent's `incoming_deps` and submitting those that reach zero, then
run the group step. -/
def wc_task_complete_internal (t : TaskTables) (tid : Nat) :
    TaskTables × List Nat :=
  let t1 := setTask t tid { t.tasks tid with state := WC_TASK_COMPLETED }
  let r := completeLoop t1 ((t1.tasks tid).outgoing_deps) []
  completeGroup r.1 ((r.1.tasks tid).group) r.2

theorem setTask_tasks_self (t : TaskTables) (i : Nat) (tk : WCTask) :
    (setTask t i tk).tasks i = tk := by
  simp [setTask]

theorem setTask_tasks_ne (t : TaskTables) (i j : Nat) (tk : WCTask)
    (h : j ≠ i) :
    (setTask t i tk).tasks j = t.tasks j := by
  simp [setTask, h]

theorem setTask_groups (t : TaskTables) (i : Nat) (tk : WCTask) :
    (setTask t i tk).groups = t.groups := rfl

theorem completeLoop_cons_zero (t : TaskTables) (d : Nat) (rest : List Nat)
    (subs : List Nat)
    (hrem : ((t.tasks d).incoming_deps + (U64 - 1)) % U64 = 0) :
    completeLoop t (d :: rest) subs =
      completeLoop
        (setTask t d { t.tasks d with
          incoming_deps := ((t.tasks d).incoming_deps + (U64 - 1)) % U64,
          state := WC_TASK_READY })
        rest (subs ++ [d]) := by
  simp only [completeLoop]
  rw [if_pos hrem]

theorem completeLoop_cons_pos (t : TaskTables) (d : Nat) (rest : List Nat)
    (subs : List Nat)
    (hrem : ¬ ((t.tasks d).incoming_deps + (U64 - 1)) % U64 = 0) :
    completeLoop t (d :: rest) subs =
      completeLoop
        (setTask t d { t.tasks d with
          incoming_deps := ((t.tasks d).incoming_deps + (U64 - 1)) % U64 })
        rest subs := by
  simp only [completeLoop]
  rw [if_neg hrem]

theorem completeLoop_tasks_notin (deps : List Nat) :
    ∀ (t : TaskTables) (subs : List Nat) (j : Nat), j ∉ deps →
      (completeLoop t deps subs).1.tasks j = t.tasks j := by
  induction deps with
  | nil =>
      intro t subs j _
      rfl
  | cons d rest ih =>
      intro t subs j hj
      have hjd : j ≠ d := fun h => hj (h ▸ List.mem_cons_self d rest)
      have hjr : j ∉ rest := fun h => hj (List.mem_cons_of_mem d h)
      by_cases hrem : ((t.tasks d).incoming_deps + (U64 - 1)) % U64 = 0
      · rw [completeLoop_cons_zero t d rest subs hrem]
        exact (ih _ _ j hjr).trans (setTask_tasks_ne _ _ _ _ hjd)
      · rw [completeLoop_cons_pos t d rest subs hrem]
        exact (ih _ _ j hjr).trans (setTask_tasks_ne _ _ _ _ hjd)

theorem completeLoop_groups2 (deps : List Nat) :
    ∀ (t : TaskTables) (subs : List Nat),
      (completeLoop t deps subs).1.groups = t.groups := by
  induction deps with
  | nil =>
      intro t subs
      rfl
  | cons d rest ih =>
      intro t subs
      by_cases hrem : ((t.tasks d).incoming_deps + (U64 - 1)) % U64 = 0
      · rw [completeLoop_cons_zero t d rest subs hrem]
        exact ih _ _
      · rw [completeLoop_cons_pos t d rest subs hrem]
        exact ih _ _

theorem completeLoop_incoming (deps : List Nat) :
    ∀ (t : TaskTables) (subs : List Nat), deps.Nodup →
      (∀ e ∈ deps, 1 ≤ (t.tasks e).incoming_deps ∧ (t.tasks e).incoming_deps < U64) →
      ∀ d ∈ deps,
        ((completeLoop t deps subs).1.tasks d).incoming_deps
          = (t.tasks d).incoming_deps - 1 := by
  induction deps with
  | nil =>
      intro t subs _ _ d hd
      cases hd
  | cons e rest ih =>
      intro t subs hnd hpos d hd
      obtain ⟨he_nin, hnd_rest⟩ := List.nodup_cons.mp hnd
      have hb := hpos e (List.mem_cons_self e rest)
      have harith : ((t.tasks e).incoming_deps + (U64 - 1)) % U64
          = (t.tasks e).incoming_deps - 1 := by
        have h2 : (t.tasks e).incoming_deps < 2 ^ 64 := hb.2
        have h1 := hb.1
        show ((t.tasks e).incoming_deps + (2 ^ 64 - 1)) % 2 ^ 64
          = (t.tasks e).incoming_deps - 1
        omega
      rcases List.mem_cons.mp hd with hde | hdr
      · subst hde
        by_cases hrem : ((t.tasks d).incoming_deps + (U64 - 1)) % U64 = 0
        · rw [completeLoop_cons_zero t d rest subs hrem,
            completeLoop_tasks_notin rest _ _ d he_nin, setTask_tasks_self]
          exact harith
        · rw [completeLoop_cons_pos t d rest subs hrem,
            completeLoop_tasks_notin rest _ _ d he_nin, setTask_tasks_self]
          exact harith
      · have hde : d ≠ e := fun h => he_nin (h ▸ hdr)
        by_cases hrem : ((t.tasks e).incoming_deps + (U64 - 1)) % U64 = 0
        · rw [completeLoop_cons_zero t e rest subs hrem]
          refine (ih _ _ hnd_rest ?_ d hdr).trans ?_
          · intro f hf
            have hfe : f ≠ e := fun h => he_nin (h ▸ hf)
            rw [setTask_tasks_ne _ _ _ _ hfe]
            exact hpos f (List.mem_cons_of_mem e hf)
          · rw [setTask_tasks_ne _ _ _ _ hde]
        · rw [completeLoop_cons_pos t e rest subs hrem]
          refine (ih _ _ hnd_rest ?_ d hdr).trans ?_
          · intro f hf
            have hfe : f ≠ e := fun h => he_nin (h ▸ hf)
            rw [setTask_tasks_ne _ _ _ _ hfe]
            exact hpos f (List.mem_cons_of_mem e hf)
          · rw [setTask_tasks_ne _ _ _ _ hde]

theorem completeLoop_state_zero (deps : List Nat) :
    ∀ (t : TaskTables) (subs : List Nat), deps.Nodup →
      (∀ e ∈ deps, 1 ≤ (t.tasks e).incoming_deps ∧ (t.tasks e).incoming_deps < U64) →
      ∀ d ∈ deps, (t.tasks d).incoming_deps = 1 →
        ((completeLoop t deps subs).1.tasks d).state = WC_TASK_READY := by
  induction deps with
  | nil =>
      intro t subs _ _ d hd
      cases hd
  | cons e rest ih =>
      intro t subs hnd hpos d hd hone
      obtain ⟨he_nin, hnd_rest⟩ := List.nodup_cons.mp hnd
      rcases List.mem_cons.mp hd with hde | hdr
      · subst hde
        have hrem : ((t.tasks d).incoming_deps + (U64 - 1)) % U64 = 0 := by
          rw [hone]
          show (1 + (2 ^ 64 - 1)) % 2 ^ 64 = 0
          norm_num
        rw [completeLoop_cons_zero t d rest subs hrem,
          completeLoop_tasks_notin rest _ _ d he_nin, setTask_tasks_self]
      · have hde : d ≠ e := fun h => he_nin (h ▸ hdr)
        have hb := hpos e (List.mem_cons_self e rest)
        by_cases hrem : ((t.tasks e).incoming_deps + (U64 - 1)) % U64 = 0
        · rw [completeLoop_cons_zero t e rest subs hrem]
          refine Eq.trans (ih _ _ hnd_rest ?_ d hdr ?_) rfl
          · intro f hf
            have hfe : f ≠ e := fun h => he_nin (h ▸ hf)
            rw [setTask_tasks_ne _ _ _ _ hfe]
            exact hpos f (List.mem_cons_of_mem e hf)
          · rw [setTask_tasks_ne _ _ _ _ hde]
            exact hone
        · rw [completeLoop_cons_pos t e rest subs hrem]
          refine Eq.trans (ih _ _ hnd_rest ?_ d hdr ?_) rfl
          · intro f hf
            have hfe : f ≠ e := fun h => he_nin (h ▸ hf)
            rw [setTask_tasks_ne _ _ _ _ hfe]
            exact hpos f (List.mem_cons_of_mem e hf)
          · rw [setTask_tasks_ne _ _ _ _ hde]
            exact hone

theorem completeLoop_state_pos (deps : List Nat) :
    ∀ (t : TaskTables) (subs : List Nat), deps.Nodup →
      (∀ e ∈ deps, 1 ≤ (t.tasks e).incoming_deps ∧ (t.tasks e).incoming_deps < U64) →
      ∀ d ∈ deps, (t.tasks d).incoming_deps ≠ 1 →
        ((completeLoop t deps subs).1.tasks d).state = (t.tasks d).state := by
  induction deps with
  | nil =>
      intro t subs _ _ d hd
      cases hd
  | cons e rest ih =>
      intro t subs hnd hpos d hd hne1
      obtain ⟨he_nin, hnd_rest⟩ := List.nodup_cons.mp hnd
      rcases List.mem_cons.mp hd with hde | hdr
      · subst hde
        have hb := hpos d (List.mem_cons_self d rest)
        have hrem : ¬ ((t.tasks d).incoming_deps + (U64 - 1)) % U64 = 0 := by
          have h2 : (t.tasks d).incoming_deps < 2 ^ 64 := hb.2
          have h1 := hb.1
          show ¬ ((t.tasks d).incoming_deps + (2 ^ 64 - 1)) % 2 ^ 64 = 0
          omega
        rw [completeLoop_cons_pos t d rest subs hrem,
          completeLoop_tasks_notin rest _ _ d he_nin, setTask_tasks_self]
      · have hde : d ≠ e := fun h => he_nin (h ▸ hdr)
        by_cases hrem : ((t.tasks e).incoming_deps + (U64 - 1)) % U64 = 0
        · rw [completeLoop_cons_zero t e rest subs hrem]
          refine Eq.trans (ih _ _ hnd_rest ?_ d hdr ?_) ?_
          · intro f hf
            have hfe : f ≠ e := fun h => he_nin (h ▸ hf)
            rw [setTask_tasks_ne _ _ _ _ hfe]
            exact hpos f (List.mem_cons_of_mem e hf)
          · rw [setTask_tasks_ne _ _ _ _ hde]
            exact hne1
          · rw [setTask_tasks_ne _ _ _ _ hde]
        · rw [completeLoop_cons_pos t e rest subs hrem]
          refine Eq.trans (ih _ _ hnd_rest ?_ d hdr ?_) ?_
          · intro f hf
            have hfe : f ≠ e := fun h => he_nin (h ▸ hf)
            rw [setTask_tasks_ne _ _ _ _ hfe]
            exact hpos f (List.mem_cons_of_mem e hf)
          · rw [setTask_tasks_ne _ _ _ _ hde]
            exact hne1
          · rw [setTask_tasks_ne _ _ _ _ hde]

theorem completeLoop_subs_mem (deps : List Nat) :
    ∀ (t : TaskTables) (subs : List Nat), deps.Nodup →
      (∀ e ∈ deps, 1 ≤ (t.tasks e).incoming_deps ∧ (t.tasks e).incoming_deps < U64) →
      ∀ c, (c ∈ (completeLoop t deps subs).2 ↔
        c ∈ subs ∨ (c ∈ deps ∧ (t.tasks c).incoming_deps = 1)) := by
  induction deps with
  | nil =>
      intro t subs _ _ c
      simp [completeLoop]
  | cons e rest ih =>
      intro t subs hnd hpos c
      obtain ⟨he_nin, hnd_rest⟩ := List.nodup_cons.mp hnd
      have hb := hpos e (List.mem_cons_self e rest)
      have harith : ((t.tasks e).incoming_deps + (U64 - 1)) % U64
          = (t.tasks e).incoming_deps - 1 := by
        have h2 : (t.tasks e).incoming_deps < 2 ^ 64 := hb.2
        have h1 := hb.1
        show ((t.tasks e).incoming_deps + (2 ^ 64 - 1)) % 2 ^ 64
          = (t.tasks e).incoming_deps - 1
        omega
      by_cases hrem : ((t.tasks e).incoming_deps + (U64 - 1)) % U64 = 0
      · have hold1 : (t.tasks e).incoming_deps = 1 := by
          rw [harith] at hrem
          have h1 := hb.1
          omega
        rw [completeLoop_cons_zero t e rest subs hrem]
        refine (ih _ _ hnd_rest ?_ c).trans ?_
        · intro f hf
          have hfe : f ≠ e := fun h => he_nin (h ▸ hf)
          rw [setTask_tasks_ne _ _ _ _ hfe]
          exact hpos f (List.mem_cons_of_mem e hf)
        · by_cases hc : c ∈ rest
          · have hce : c ≠ e := fun h => he_nin (h ▸ hc)
            rw [setTask_tasks_ne _ _ _ _ hce]
            simp [List.mem_append, List.mem_cons, hc, hce]
          · by_cases hce : c = e
            · subst hce
              simp [List.mem_append, List.mem_cons, hc, hold1]
            · simp [List.mem_append, List.mem_cons, hc, hce]
      · have holdne : (t.tasks e).incoming_deps ≠ 1 := by
          intro h1
          rw [harith, h1] at hrem
          exact hrem rfl
        rw [completeLoop_cons_pos t e rest subs hrem]
        refine (ih _ _ hnd_rest ?_ c).trans ?_
        · intro f hf
          have hfe : f ≠ e := fun h => he_nin (h ▸ hf)
          rw [setTask_tasks_ne _ _ _ _ hfe]
          exact hpos f (List.mem_cons_of_mem e hf)
        · by_cases hc : c ∈ rest
          · have hce : c ≠ e := fun h => he_nin (h ▸ hc)
            rw [setTask_tasks_ne _ _ _ _ hce]
            simp [List.mem_cons, hc, hce]
          · by_cases hce : c = e
            · subst hce
              simp [List.mem_cons, hc, holdne]
            · simp [List.mem_cons, hc, hce]

theorem setGroup_groups_self (t : TaskTables) (i : Nat) (gr : WCTaskGroup) :
    (setGroup t i gr).groups i = gr := by
  simp [setGroup]

theorem completeGroup_tasks (t : TaskTables) (g : Option Nat) (subs : List Nat) :
    (completeGroup t g subs).1.tasks = t.tasks := by
  cases g with
  | none => rfl
  | some gi =>
      simp only [completeGroup]
      by_cases hrem : ((t.groups gi).remaining_tasks + (U64 - 1)) % U64 = 0
      · rw [if_pos hrem]
        rcases ((setGroup t gi
            { t.groups gi with
              remaining_tasks := ((t.groups gi).remaining_tasks + (U64 - 1)) % U64
            }).groups gi).continuation with _ | c
        · rfl
        · rfl
      · rw [if_neg hrem]
        rfl

theorem completeGroup_subs_mono (t : TaskTables) (g : Option Nat)
    (subs : List Nat) (x : Nat) (hx : x ∈ subs) :
    x ∈ (completeGroup t g subs).2 := by
  cases g with
  | none => exact hx
  | some gi =>
      simp only [completeGroup]
      by_cases hrem : ((t.groups gi).remaining_tasks + (U64 - 1)) % U64 = 0
      · rw [if_pos hrem]
        rcases ((setGroup t gi
            { t.groups gi with
              remaining_tasks := ((t.groups gi).remaining_tasks + (U64 - 1)) % U64
            }).groups gi).continuation with _ | c
        · exact hx
        · exact List.mem_append_left _ hx
      · rw [if_neg hrem]
        exact hx

theorem completeGroup_subs_sub (t : TaskTables) (g : Option Nat)
    (subs : List Nat) (x : Nat) (hx : x ∈ (completeGroup t g subs).2) :
    x ∈ subs ∨ (∃ gi, g = some gi ∧ (t.groups gi).continuation = some x) := by
  cases g with
  | none => exact Or.inl hx
  | some gi =>
      simp only [completeGroup] at hx
      by_cases hrem : ((t.groups gi).remaining_tasks + (U64 - 1)) % U64 = 0
      · rw [if_pos hrem] at hx
        rcases hc : ((setGroup t gi
            { t.groups gi with
              remaining_tasks := ((t.groups gi).remaining_tasks + (U64 - 1)) % U64
            }).groups gi).continuation with _ | c
        · rw [hc] at hx
          exact Or.inl hx
        · rw [hc] at hx
          rcases List.mem_append.mp hx with h | h
          · exact Or.inl h
          · refine Or.inr ⟨gi, rfl, ?_⟩
            rw [setGroup_groups_self] at hc
            rw [List.mem_singleton.mp h]
            exact hc
      · rw [if_neg hrem] at hx
        exact Or.inl hx

/-- C2: when a task `tid` completes, `wc_task_complete_internal` decrements
each dependent's `incoming_deps` by exactly one, and exactly those
dependents whose counter reaches zero are set to `READY` and submitted;
dependents whose counter stays positive keep their state and are not
submitted.  Hypotheses: the outgoing list has no duplicate edges and does
not contain the completing task itself; every dependent has at least one
unmet dependency (and a counter below `2^64`); the group continuation, if
any, is not itself a dependent of `tid`. -/
theorem wc_task_complete_releases_dependents
    (t : TaskTables) (tid : Nat)
    (hnodup : ((t.tasks tid).outgoing_deps).Nodup)
    (hself : tid ∉ (t.tasks tid).outgoing_deps)
    (hpos : ∀ e ∈ (t.tasks tid).outgoing_deps,
      1 ≤ (t.tasks e).incoming_deps ∧ (t.tasks e).incoming_deps < U64)
    (hcont : ∀ gi, (t.tasks tid).group = some gi →
      ∀ c, (t.groups gi).continuation = some c → c ∉ (t.tasks tid).outgoing_deps) :
    ∀ d ∈ (t.tasks tid).outgoing_deps,
      (((wc_task_complete_internal t tid).1.tasks d).incoming_deps
          = (t.tasks d).incoming_deps - 1) ∧
      ((t.tasks d).incoming_deps = 1 →
        ((wc_task_complete_internal t tid).1.tasks d).state = WC_TASK_READY ∧
        d ∈ (wc_task_complete_internal t tid).2) ∧
      ((t.tasks d).incoming_deps ≠ 1 →
        ((wc_task_complete_internal t tid).1.tasks d).state = (t.tasks d).state ∧
        d ∉ (wc_task_complete_internal t tid).2) := by
  intro d hd
  have hdeps : ((setTask t tid
        { t.tasks tid with state := WC_TASK_COMPLETED }).tasks tid).outgoing_deps
      = (t.tasks tid).outgoing_deps := by
    rw [setTask_tasks_self]
  have hunf : wc_task_complete_internal t tid =
      completeGroup
        (completeLoop (setTask t tid { t.tasks tid with state := WC_TASK_COMPLETED })
          ((setTask t tid
            { t.tasks tid with state := WC_TASK_COMPLETED }).tasks tid).outgoing_deps []).1
        (((completeLoop (setTask t tid { t.tasks tid with state := WC_TASK_COMPLETED })
          ((setTask t tid
            { t.tasks tid with state := WC_TASK_COMPLETED }).tasks tid).outgoing_deps
          []).1.tasks tid).group)
        ((completeLoop (setTask t tid { t.tasks tid with state := WC_TASK_COMPLETED })
          ((setTask t tid
            { t.tasks tid with state := WC_TASK_COMPLETED }).tasks tid).outgoing_deps
          []).2) := rfl
  rw [hdeps] at hunf
  have hdtid : d ≠ tid := fun h => hself (h ▸ hd)
  have htidnin : tid ∉ (t.tasks tid).outgoing_deps := hself
  have hpos1 : ∀ e ∈ (t.tasks tid).outgoing_deps,
      1 ≤ ((setTask t tid
          { t.tasks tid with state := WC_TASK_COMPLETED }).tasks e).incoming_deps ∧
      ((setTask t tid
          { t.tasks tid with state := WC_TASK_COMPLETED }).tasks e).incoming_deps < U64 := by
    intro e he
    have hetid : e ≠ tid := fun h => hself (h ▸ he)
    rw [setTask_tasks_ne _ _ _ _ hetid]
    exact hpos e he
  refine ⟨?_, ?_, ?_⟩
  · rw [hunf, completeGroup_tasks,
      completeLoop_incoming _ _ _ hnodup hpos1 d hd,
      setTask_tasks_ne _ _ _ _ hdtid]
  · intro h1
    constructor
    · rw [hunf, completeGroup_tasks,
        completeLoop_state_zero _ _ _ hnodup hpos1 d hd
          (by rw [setTask_tasks_ne _ _ _ _ hdtid]; exact h1)]
    · rw [hunf]
      refine completeGroup_subs_mono _ _ _ d ?_
      refine (completeLoop_subs_mem _ _ _ hnodup hpos1 d).mpr ?_
      refine Or.inr ⟨hd, ?_⟩
      rw [setTask_tasks_ne _ _ _ _ hdtid]
      exact h1
  · intro hne1
    constructor
    · rw [hunf, completeGroup_tasks,
        completeLoop_state_pos _ _ _ hnodup hpos1 d hd
          (by rw [setTask_tasks_ne _ _ _ _ hdtid]; exact hne1),
        setTask_tasks_ne _ _ _ _ hdtid]
    · rw [hunf]
      intro hmem
      rcases completeGroup_subs_sub _ _ _ d hmem with h | ⟨gi, hgi, hcont2⟩
      · rcases (completeLoop_subs_mem _ _ _ hnodup hpos1 d).mp h with h0 | ⟨_, h1⟩
        · cases h0
        · rw [setTask_tasks_ne _ _ _ _ hdtid] at h1
          exact hne1 h1
      · have hg3 : ((completeLoop
            (setTask t tid { t.tasks tid with state := WC_TASK_COMPLETED })
            (t.tasks tid).outgoing_deps []).1.tasks tid).group
            = (t.tasks tid).group := by
          rw [completeLoop_tasks_notin _ _ _ tid htidnin, setTask_tasks_self]
        rw [hg3] at hgi
        have hcont3 : (t.groups gi).continuation = some d := by
          have h4 : (completeLoop
              (setTask t tid { t.tasks tid with state := WC_TASK_COMPLETED })
              (t.tasks tid).outgoing_deps []).1.groups
              = (setTask t tid { t.tasks tid with state := WC_TASK_COMPLETED }).groups :=
            completeLoop_groups2 _ _ _
          rw [h4] at hcont2
          exact hcont2
        exact hcont gi hgi d hcont3 hd

/-- Concrete two-dependent table used to witness the C2 theorem: task 0
completes with dependents 1 (one unmet dependency) and 2 (two unmet
dependencies). -/
def c2Tables : TaskTables :=
  { tasks := fun j =>
      if j = 0 then
        { state := 2, incoming_deps := 0, outgoing_deps := [1, 2], group := none }
      else if j = 1 then
        { state := 0, incoming_deps := 1, outgoing_deps := [], group := none }
      else
        { state := 0, incoming_deps := 2, outgoing_deps := [], group := none },
    groups := fun _ =>
      { remaining_tasks := 0, continuation := none, auto_destroy := false } }

/-- Concrete instance of `wc_task_complete_releases_dependents`: dependent
1 reaches zero, turns `READY` and is submitted; dependent 2 drops to one
unmet dependency and is neither marked ready nor submitted. -/
theorem wc_task_complete_releases_dependents_witness :
    ((wc_task_complete_internal c2Tables 0).1.tasks 1).incoming_deps = 0 ∧
    ((wc_task_complete_internal c2Tables 0).1.tasks 1).state = WC_TASK_READY ∧
    1 ∈ (wc_task_complete_internal c2Tables 0).2 ∧
    ((wc_task_complete_internal c2Tables 0).1.tasks 2).incoming_deps = 1 ∧
    2 ∉ (wc_task_complete_internal c2Tables 0).2 := by
  have h := wc_task_complete_releases_dependents c2Tables 0 (by decide) (by decide)
    (by decide)
    (by intro gi hgi c hc; simp [c2Tables] at hgi)
  have h1 := h 1 (by decide)
  have h2 := h 2 (by decide)
  refine ⟨?_, ?_, ?_, ?_, ?_⟩
  · rw [h1.1]
    decide
  · exact (h1.2.1 (by decide)).1
  · exact (h1.2.1 (by decide)).2
  · rw [h2.1]
    decide
  · exact (h2.2.2 (by decide)).2

/-! ## Victim selection (`src/system/thread_pool.c`)

The per-worker PRNG is xorshift32 (`wc_random_next`); its state is a
`u32`.  The topology is the initialised `g_numa_topology`: a node list
(worker-id list plus a memory-bandwidth estimate; the C `float` bandwidth
only ever feeds an order comparison, so it is carried as a `Nat`) and the
worker-to-node map.  The unbounded retry loops (random-victim rejection
sampling and tier 3 of the NUMA policy) take fuel and return `none` when
they have not exited after that many iterations; the tier-1 loop is
bounded by the source itself (`attempts < worker_count`).  A `some`
topology argument plays the role of `g_numa_topology != NULL &&
topology_valid`. -/

def U32 : Nat := 2 ^ 32

/-- Embedding of `wc_random_next` (xorshift32): `x ^= x << 13; x ^= x >>
17; x ^= x << 5` on a `u32`. -/
def wc_random_next (x : Nat) : Nat :=
  let x1 := (x ^^^ (x <<< 13)) % U32
  let x2 := x1 ^^^ (x1 >>> 17)
  (x2 ^^^ (x2 <<< 5)) % U32

structure WC_NumaNode where
  worker_ids : List Nat
  memory_bandwidth_gbps : Nat

structure WC_NumaTopology where
  nodes : List WC_NumaNode
  worker_to_node : Nat → Nat

/-- The rejection loop of `wc_pool_select_random_victim`: draw
`rand % worker_count` until it differs from the thief. -/
def randomVictimLoop (worker_count tid : Nat) : Nat → Nat → Option (Nat × Nat)
  | _, 0 => none
  | rng, fuel + 1 =>
      let rng1 := wc_random_next rng
      let victim := rng1 % worker_count
      if victim = tid then randomVictimLoop worker_count tid rng1 fuel
      else some (victim, rng1)

/-- Embedding of `wc_pool_select_random_victim`: with one worker (or none)
it returns the thief's own thread id; otherwise it rejection-samples. -/
def wc_pool_select_random_victim (worker_count tid rng fuel : Nat) :
    Option (Nat × Nat) :=
  if worker_count ≤ 1 then some (tid, rng)
  else randomVictimLoop worker_count tid rng fuel

/-- The tier-1 do-while loop of `wc_pool_select_numa_victim`: draw a local
index, counting attempts, while the drawn worker is the thief and
`attempts < worker_count`.  Returns (index, attempts, rng).  The source
bounds the loop by `attempts`; `fuel = worker_ids.length` makes the guard
arm unreachable. -/
def tier1Loop (ids : List Nat) (tid : Nat) : Nat → Nat → Nat → Nat × Nat × Nat
  | rng, attempts, 0 => (0, attempts, rng)
  | rng, attempts, fuel + 1 =>
      let rng1 := wc_random_next rng
      let idx := rng1 % ids.length
      if ids.getD idx 0 = tid ∧ attempts + 1 < ids.length then
        tier1Loop ids tid rng1 (attempts + 1) fuel
      else
        (idx, attempts + 1, rng1)

/-- The tier-2 best-remote-node scan: over node indices in order, keep the
non-local node with positive worker count and strictly largest bandwidth
seen so far (starting from bandwidth 0, like the C `best_bw = 0.0f`). -/
def bestRemoteFold (nodes : List WC_NumaNode) (thief_node : Nat) :
    List Nat → Option Nat × Nat → Option Nat × Nat
  | [], acc => acc
  | i :: rest, acc =>
      if i ≠ thief_node ∧ 0 < (nodes.getD i ⟨[], 0⟩).worker_ids.length ∧
         acc.2 < (nodes.getD i ⟨[], 0⟩).memory_bandwidth_gbps then
        bestRemoteFold nodes thief_node rest
          (some i, (nodes.getD i ⟨[], 0⟩).memory_bandwidth_gbps)
      else
        bestRemoteFold nodes thief_node rest acc

/-- The tier-3 do-while loop: draw `rand % node_count` while it is the
local node or an empty node, then draw a worker of the chosen node. -/
def tier3Loop (topo : WC_NumaTopology) (thief_node : Nat) :
    Nat → Nat → Option (Nat × Nat)
  | _, 0 => none
  | rng, fuel + 1 =>
      let rng1 := wc_random_next rng
      let rn := rng1 % topo.nodes.length
      if rn = thief_node ∨ (topo.nodes.getD rn ⟨[], 0⟩).worker_ids.length = 0 then
        tier3Loop topo thief_node rng1 fuel
      else
        let node := topo.nodes.getD rn ⟨[], 0⟩
        let rng2 := wc_random_next rng1
        some (node.worker_ids.getD (rng2 % node.worker_ids.length) 0, rng2)

/-- Embedding of `wc_pool_select_numa_victim`: draw `random_val < 100`;
tier 1 (local node, `random_val < 70`, at least two local workers); tier 2
(`random_val < 95`, more than one node, best-bandwidth remote node);
tier 3 (random non-local non-empty node, unbounded retry). -/
def wc_pool_select_numa_victim (topo : WC_NumaTopology) (tid rng fuel : Nat) :
    Option (Nat × Nat) :=
  let thief_node := topo.worker_to_node tid
  let local_node := topo.nodes.getD thief_node ⟨[], 0⟩
  let rng1 := wc_random_next rng
  let random_val := rng1 % 100
  let t1 : Option (Nat × Nat) × Nat :=
    if 1 < local_node.worker_ids.length ∧ random_val < 70 then
      let r := tier1Loop local_node.worker_ids tid rng1 0 local_node.worker_ids.length
      if r.2.1 < local_node.worker_ids.length then
        (some (local_node.worker_ids.getD r.1 0, r.2.2), r.2.2)
      else
        (none, r.2.2)
    else
      (none, rng1)
  match t1.1 with
  | some v => some v
  | none =>
      if 1 < topo.nodes.length ∧ random_val < 95 then
        match (bestRemoteFold topo.nodes thief_node
            (List.range topo.nodes.length) (none, 0)).1 with
        | some br =>
            let remote := topo.nodes.getD br ⟨[], 0⟩
            let rng3 := wc_random_next t1.2
            some (remote.worker_ids.getD (rng3 % remote.worker_ids.length) 0, rng3)
        | none => tier3Loop topo thief_node t1.2 fuel
      else
        tier3Loop topo thief_node t1.2 fuel

/-- Embedding of `wc_pool_select_victim`: the NUMA policy runs when NUMA
awareness is enabled and a valid topology exists; otherwise the simple
random policy runs. -/
def wc_pool_select_victim (enable_numa : Bool) (topo : Option WC_NumaTopology)
    (worker_count tid rng fuel : Nat) : Option (Nat × Nat) :=
  if enable_numa then
    match topo with
    | some tp => wc_pool_select_numa_victim tp tid rng fuel
    | none => wc_pool_select_random_victim worker_count tid rng fuel
  else
    wc_pool_select_random_victim worker_count tid rng fuel

theorem randomVictimLoop_ne (worker_count tid : Nat) :
    ∀ (fuel rng v r : Nat),
      randomVictimLoop worker_count tid rng fuel = some (v, r) → v ≠ tid := by
  intro fuel
  induction fuel with
  | zero =>
      intro rng v r h
      exact Option.noConfusion h
  | succ n ih =>
      intro rng v r h
      simp only [randomVictimLoop] at h
      by_cases hv : wc_random_next rng % worker_count = tid
      · rw [if_pos hv] at h
        exact ih _ v r h
      · rw [if_neg hv] at h
        injection h with hpair
        cases hpair
        exact hv

theorem wc_pool_select_random_victim_ne
    (worker_count tid rng fuel v r : Nat) (hwc : 2 ≤ worker_count)
    (h : wc_pool_select_random_victim worker_count tid rng fuel = some (v, r)) :
    v ≠ tid := by
  unfold wc_pool_select_random_victim at h
  rw [if_neg (by omega)] at h
  exact randomVictimLoop_ne worker_count tid fuel rng v r h

theorem tier1Loop_exit_ne (ids : List Nat) (tid : Nat) :
    ∀ (fuel rng attempts idx att2 r2 : Nat),
      ids.length ≤ attempts + fuel →
      tier1Loop ids tid rng attempts fuel = (idx, att2, r2) →
      att2 < ids.length →
      ids.getD idx 0 ≠ tid := by
  intro fuel
  induction fuel with
  | zero =>
      intro rng attempts idx att2 r2 hb h hlt
      injection h with h1 h23
      injection h23 with h2 h3
      omega
  | succ n ih =>
      intro rng attempts idx att2 r2 hb h hlt
      simp only [tier1Loop] at h
      by_cases hc : ids.getD (wc_random_next rng % ids.length) 0 = tid ∧
          attempts + 1 < ids.length
      · rw [if_pos hc] at h
        exact ih _ _ idx att2 r2 (by omega) h hlt
      · rw [if_neg hc] at h
        injection h with h1 h23
        injection h23 with h2 h3
        subst h1
        subst h2
        intro heq
        exact hc ⟨heq, hlt⟩

theorem bestRemoteFold_spec (nodes : List WC_NumaNode) (tn : Nat) :
    ∀ (l : List Nat) (acc : Option Nat × Nat) (b : Nat),
      (bestRemoteFold nodes tn l acc).1 = some b →
      acc.1 = some b ∨
        (b ∈ l ∧ b ≠ tn ∧ 0 < (nodes.getD b ⟨[], 0⟩).worker_ids.length) := by
  intro l
  induction l with
  | nil =>
      intro acc b h
      exact Or.inl h
  | cons i rest ih =>
      intro acc b h
      simp only [bestRemoteFold] at h
      by_cases hc : i ≠ tn ∧ 0 < (nodes.getD i ⟨[], 0⟩).worker_ids.length ∧
          acc.2 < (nodes.getD i ⟨[], 0⟩).memory_bandwidth_gbps
      · rw [if_pos hc] at h
        rcases ih _ b h with hacc | ⟨hmem, hbt, hbc⟩
        · injection hacc with hib
          subst hib
          exact Or.inr ⟨List.mem_cons_self i rest, hc.1, hc.2.1⟩
        · exact Or.inr ⟨List.mem_cons_of_mem i hmem, hbt, hbc⟩
      · rw [if_neg hc] at h
        rcases ih _ b h with hacc | ⟨hmem, hbt, hbc⟩
        · exact Or.inl hacc
        · exact Or.inr ⟨List.mem_cons_of_mem i hmem, hbt, hbc⟩

theorem tier3Loop_some_spec (topo : WC_NumaTopology) (tn : Nat) :
    ∀ (fuel rng v r : Nat),
      tier3Loop topo tn rng fuel = some (v, r) →
      ∃ rn, rn ≠ tn ∧ rn < topo.nodes.length ∧
        v ∈ (topo.nodes.getD rn ⟨[], 0⟩).worker_ids := by
  intro fuel
  induction fuel with
  | zero =>
      intro rng v r h
      exact Option.noConfusion h
  | succ n ih =>
      intro rng v r h
      simp only [tier3Loop] at h
      by_cases hc : wc_random_next rng % topo.nodes.length = tn ∨
          (topo.nodes.getD (wc_random_next rng % topo.nodes.length) ⟨[], 0⟩).worker_ids.length = 0
      · rw [if_pos hc] at h
        exact ih _ v r h
      · rw [if_neg hc] at h
        push_neg at hc
        obtain ⟨hne, hlen⟩ := hc
        injection h with hpair
        have hv : (topo.nodes.getD (wc_random_next rng % topo.nodes.length)
            ⟨[], 0⟩).worker_ids.getD
            (wc_random_next (wc_random_next rng) %
              (topo.nodes.getD (wc_random_next rng % topo.nodes.length)
                ⟨[], 0⟩).worker_ids.length) 0 = v := congrArg Prod.fst hpair
        have hnl : 0 < topo.nodes.length := by
          by_contra hz
          have h0 : topo.nodes.length = 0 := by omega
          have : (topo.nodes.getD (wc_random_next rng % topo.nodes.length)
              ⟨[], 0⟩) = (⟨[], 0⟩ : WC_NumaNode) := by
            apply List.getD_eq_default
            omega
          rw [this] at hlen
          exact hlen rfl
        refine ⟨wc_random_next rng % topo.nodes.length, hne,
          Nat.mod_lt _ hnl, ?_⟩
        rw [← hv]
        have hidx : wc_random_next (wc_random_next rng) %
            (topo.nodes.getD (wc_random_next rng % topo.nodes.length)
              ⟨[], 0⟩).worker_ids.length <
            (topo.nodes.getD (wc_random_next rng % topo.nodes.length)
              ⟨[], 0⟩).worker_ids.length :=
          Nat.mod_lt _ (Nat.pos_of_ne_zero hlen)
        rw [List.getD_eq_getElem _ _ hidx]
        exact List.getElem_mem hidx

theorem wc_pool_select_numa_victim_ne
    (topo : WC_NumaTopology) (tid rng fuel v r : Nat)
    (hcons : ∀ n, n < topo.nodes.length → n ≠ topo.worker_to_node tid →
      tid ∉ (topo.nodes.getD n ⟨[], 0⟩).worker_ids)
    (h : wc_pool_select_numa_victim topo tid rng fuel = some (v, r)) :
    v ≠ tid := by
  simp only [wc_pool_select_numa_victim] at h
  by_cases c1 : 1 < (topo.nodes.getD (topo.worker_to_node tid)
      ⟨[], 0⟩).worker_ids.length ∧ wc_random_next rng % 100 < 70
  · rw [if_pos c1] at h
    by_cases c2 : (tier1Loop
        (topo.nodes.getD (topo.worker_to_node tid) ⟨[], 0⟩).worker_ids tid
        (wc_random_next rng) 0
        (topo.nodes.getD (topo.worker_to_node tid) ⟨[], 0⟩).worker_ids.length).2.1 <
        (topo.nodes.getD (topo.worker_to_node tid) ⟨[], 0⟩).worker_ids.length
    · rw [if_pos c2] at h
      injection h with hpair
      have hv := congrArg Prod.fst hpair
      simp only at hv
      rw [← hv]
      exact tier1Loop_exit_ne
        (topo.nodes.getD (topo.worker_to_node tid) ⟨[], 0⟩).worker_ids tid
        (topo.nodes.getD (topo.worker_to_node tid) ⟨[], 0⟩).worker_ids.length
        (wc_random_next rng) 0 _ _ _ (by omega) rfl c2
    · rw [if_neg c2] at h
      by_cases c3 : 1 < topo.nodes.length ∧ wc_random_next rng % 100 < 95
      · rw [if_pos c3] at h
        rcases hbr : (bestRemoteFold topo.nodes (topo.worker_to_node tid)
            (List.range topo.nodes.length) (none, 0)).1 with _ | br
        · rw [hbr] at h
          rcases tier3Loop_some_spec topo (topo.worker_to_node tid) fuel _ v r h
            with ⟨rn, hrn, hrl, hvm⟩
          exact fun hveq => hcons rn hrl hrn (hveq ▸ hvm)
        · rw [hbr] at h
          rcases bestRemoteFold_spec topo.nodes (topo.worker_to_node tid)
              (List.range topo.nodes.length) (none, 0) br hbr with hacc | ⟨hmem, hbt, hbc⟩
          · exact Option.noConfusion hacc
          · injection h with hpair
            have hv := congrArg Prod.fst hpair
            simp only at hv
            have hidx : wc_random_next (tier1Loop
                (topo.nodes.getD (topo.worker_to_node tid) ⟨[], 0⟩).worker_ids tid
                (wc_random_next rng) 0
                (topo.nodes.getD (topo.worker_to_node tid) ⟨[], 0⟩).worker_ids.length).2.2 %
                (topo.nodes.getD br ⟨[], 0⟩).worker_ids.length <
                (topo.nodes.getD br ⟨[], 0⟩).worker_ids.length :=
              Nat.mod_lt _ hbc
            have hvm : (topo.nodes.getD br ⟨[], 0⟩).worker_ids.getD
                (wc_random_next (tier1Loop
                  (topo.nodes.getD (topo.worker_to_node tid) ⟨[], 0⟩).worker_ids tid
                  (wc_random_next rng) 0
                  (topo.nodes.getD (topo.worker_to_node tid) ⟨[], 0⟩).worker_ids.length).2.2 %
                  (topo.nodes.getD br ⟨[], 0⟩).worker_ids.length) 0
                ∈ (topo.nodes.getD br ⟨[], 0⟩).worker_ids := by
              rw [List.getD_eq_getElem _ _ hidx]
              exact List.getElem_mem hidx
            rw [← hv]
            have hbrl : br < topo.nodes.length := List.mem_range.mp hmem
            exact fun hveq => hcons br hbrl hbt (hveq ▸ hvm)
      · rw [if_neg c3] at h
        rcases tier3Loop_some_spec topo (topo.worker_to_node tid) fuel _ v r h
          with ⟨rn, hrn, hrl, hvm⟩
        exact fun hveq => hcons rn hrl hrn (hveq ▸ hvm)
  · rw [if_neg c1] at h
    by_cases c3 : 1 < topo.nodes.length ∧ wc_random_next rng % 100 < 95
    · rw [if_pos c3] at h
      rcases hbr : (bestRemoteFold topo.nodes (topo.worker_to_node tid)
          (List.range topo.nodes.length) (none, 0)).1 with _ | br
      · rw [hbr] at h
        rcases tier3Loop_some_spec topo (topo.worker_to_node tid) fuel _ v r h
          with ⟨rn, hrn, hrl, hvm⟩
        exact fun hveq => hcons rn hrl hrn (hveq ▸ hvm)
      · rw [hbr] at h
        rcases bestRemoteFold_spec topo.nodes (topo.worker_to_node tid)
            (List.range topo.nodes.length) (none, 0) br hbr with hacc | ⟨hmem, hbt, hbc⟩
        · exact Option.noConfusion hacc
        · injection h with hpair
          have hv := congrArg Prod.fst hpair
          simp only at hv
          have hidx : wc_random_next (wc_random_next rng) %
              (topo.nodes.getD br ⟨[], 0⟩).worker_ids.length <
              (topo.nodes.getD br ⟨[], 0⟩).worker_ids.length :=
            Nat.mod_lt _ hbc
          have hvm : (topo.nodes.getD br ⟨[], 0⟩).worker_ids.getD
              (wc_random_next (wc_random_next rng) %
                (topo.nodes.getD br ⟨[], 0⟩).worker_ids.length) 0
              ∈ (topo.nodes.getD br ⟨[], 0⟩).worker_ids := by
            rw [List.getD_eq_getElem _ _ hidx]
            exact List.getElem_mem hidx
          rw [← hv]
          have hbrl : br < topo.nodes.length := List.mem_range.mp hmem
          exact fun hveq => hcons br hbrl hbt (hveq ▸ hvm)
    · rw [if_neg c3] at h
      rcases tier3Loop_some_spec topo (topo.worker_to_node tid) fuel _ v r h
        with ⟨rn, hrn, hrl, hvm⟩
      exact fun hveq => hcons rn hrl hrn (hveq ▸ hvm)

/-- C7 counterexample: with a single-worker pool the victim-selection
policy returns the thief's own thread id (worker 0), contradicting the
claim that selection always returns an id different from the thief's. -/
theorem select_victim_returns_thief_when_alone :
    wc_pool_select_victim false none 1 0 1 5 = some (0, 1) := rfl

/-- C7 amended: whenever the pool has at least two workers (random path)
and, on the NUMA path, the topology maps the thief only into its own
node, any victim id the selection returns differs from the thief's
thread id. -/
theorem wc_pool_select_victim_ne
    (enable_numa : Bool) (topo : Option WC_NumaTopology)
    (worker_count tid rng fuel v r : Nat)
    (hwc : 2 ≤ worker_count)
    (hcons : ∀ tp, topo = some tp →
      ∀ n, n < tp.nodes.length → n ≠ tp.worker_to_node tid →
        tid ∉ (tp.nodes.getD n ⟨[], 0⟩).worker_ids)
    (h : wc_pool_select_victim enable_numa topo worker_count tid rng fuel
      = some (v, r)) :
    v ≠ tid := by
  unfold wc_pool_select_victim at h
  cases enable_numa with
  | false =>
      rw [if_neg (by simp)] at h
      exact wc_pool_select_random_victim_ne worker_count tid rng fuel v r hwc h
  | true =>
      rw [if_pos rfl] at h
      cases topo with
      | none =>
          exact wc_pool_select_random_victim_ne worker_count tid rng fuel v r hwc h
      | some tp =>
          exact wc_pool_select_numa_victim_ne tp tid rng fuel v r
            (hcons tp rfl) h

/-- Concrete instance of `wc_pool_select_victim_ne`: a two-worker pool on
the random path returns worker 1 to thief 0. -/
theorem wc_pool_select_victim_ne_witness :
    wc_pool_select_victim false none 2 0 1 30 = some (1, wc_random_next 1) ∧
    (1 : Nat) ≠ 0 :=
  ⟨by decide,
    wc_pool_select_victim_ne false none 2 0 1 30 1 (wc_random_next 1)
      (by decide) (fun tp h => Option.noConfusion h) (by decide)⟩

/-- The single synthetic NUMA node the detection fallback builds for a
two-worker pool: one node holding workers 0 and 1, bandwidth estimate 25,
every worker mapped to node 0. -/
def c10Topo : WC_NumaTopology :=
  { nodes := [⟨[0, 1], 25⟩], worker_to_node := fun _ => 0 }

theorem tier3Loop_single_node_none :
    ∀ (fuel rng : Nat), tier3Loop c10Topo 0 rng fuel = none := by
  intro fuel
  induction fuel with
  | zero =>
      intro rng
      rfl
  | succ n ih =>
      intro rng
      simp only [tier3Loop]
      rw [if_pos (Or.inl (show wc_random_next rng % c10Topo.nodes.length = 0
        from Nat.mod_one _))]
      exact ih _


/-- C10 evidence: on the single-node fallback topology, with thief 0 and
PRNG state 4 (whose first draw mod 100 is 76, so the tier-1 branch is not
taken), `wc_pool_select_numa_victim` reaches the tier-3 retry loop, whose
condition `random_node == thief_node` holds on every iteration
(`rand % 1 = 0`): the function fails to return for every iteration
budget. -/
theorem numa_victim_single_node_diverges :
    ∀ fuel : Nat, wc_pool_select_numa_victim c10Topo 0 4 fuel = none := by
  intro fuel
  have h : wc_pool_select_numa_victim c10Topo 0 4 fuel
      = tier3Loop c10Topo 0 (wc_random_next 4) fuel := rfl
  rw [h]
  exact tier3Loop_single_node_none fuel _

/-! ## Owner/thief race on a one-element deque (part_014)

A small-step machine: the shared state is the deque (`top`, `bottom`,
ring of capacity 64), and the owner (`wc_deque_pop_bottom`) and one thief
(`wc_deque_steal_top`) are each a program counter plus local registers,
advancing one atomic shared-memory access per step.  The owner's steps
are: read `bottom`; store `bottom - 1`; read `top`; branch; read the
ring slot; CAS `top` (last-element case); restore `bottom`.  The thief's
are: read `top`; read `bottom`; branch; read the ring slot; CAS `top`.
A schedule is a bit string: bit `i` picks which thread performs step `i`
(a finished thread's turn advances the other), so every interleaving of
the two operations occurs among the `2^13` schedules of length 13. -/

structure C8Shared where
  top : Nat
  bottom : Nat
  ring : Nat → Option Nat

structure C8Owner where
  pc : Nat
  b0 : Nat
  t : Nat
  task : Option Nat
  ret : Option (Option Nat)

structure C8Thief where
  pc : Nat
  t : Nat
  b : Nat
  task : Option Nat
  ret : Option (Option Nat)

structure C8Config where
  sh : C8Shared
  ow : C8Owner
  th : C8Thief

/-- One atomic step of the owner's `wc_deque_pop_bottom` (no-op once it
has returned). -/
def c8OwnerStep (c : C8Config) : C8Config :=
  if c.ow.ret ≠ none then c
  else
    match c.ow.pc with
    | 0 => { c with ow := { c.ow with b0 := c.sh.bottom, pc := 1 } }
    | 1 => { c with
        sh := { c.sh with bottom := (c.ow.b0 + (U64 - 1)) % U64 },
        ow := { c.ow with pc := 2 } }
    | 2 => { c with ow := { c.ow with t := c.sh.top, pc := 3 } }
    | 3 =>
        if c.ow.t ≤ (c.ow.b0 + (U64 - 1)) % U64 then
          { c with ow := { c.ow with pc := 4 } }
        else
          { c with ow := { c.ow with pc := 6 } }
    | 4 =>
        if c.ow.t = (c.ow.b0 + (U64 - 1)) % U64 then
          { c with ow := { c.ow with
              task := c.sh.ring (((c.ow.b0 + (U64 - 1)) % U64) &&& 63), pc := 5 } }
        else
          { c with ow := { c.ow with
              task := c.sh.ring (((c.ow.b0 + (U64 - 1)) % U64) &&& 63),
              ret := some (c.sh.ring (((c.ow.b0 + (U64 - 1)) % U64) &&& 63)) } }
    | 5 =>
        if c.sh.top = c.ow.t then
          { c with
              sh := { c.sh with top := (c.ow.t + 1) % U64 },
              ow := { c.ow with pc := 7 } }
        else
          { c with ow := { c.ow with task := none, pc := 7 } }
    | 6 => { c with
        sh := { c.sh with bottom := ((c.ow.b0 + (U64 - 1)) % U64 + 1) % U64 },
        ow := { c.ow with ret := some none } }
    | _ => { c with
        sh := { c.sh with bottom := ((c.ow.b0 + (U64 - 1)) % U64 + 1) % U64 },
        ow := { c.ow with ret := some c.ow.task } }

/-- One atomic step of the thief's `wc_deque_steal_top` (no-op once it
has returned). -/
def c8ThiefStep (c : C8Config) : C8Config :=
  if c.th.ret ≠ none then c
  else
    match c.th.pc with
    | 0 => { c with th := { c.th with t := c.sh.top, pc := 1 } }
    | 1 => { c with th := { c.th with b := c.sh.bottom, pc := 2 } }
    | 2 =>
        if c.th.t < c.th.b then
          { c with th := { c.th with pc := 3 } }
        else
          { c with th := { c.th with ret := some none } }
    | 3 => { c with th := { c.th with task := c.sh.ring (c.th.t &&& 63), pc := 4 } }
    | _ =>
        if c.sh.top = c.th.t then
          { c with
              sh := { c.sh with top := (c.th.t + 1) % U64 },
              th := { c.th with ret := some c.th.task } }
        else
          { c with th := { c.th with ret := some none } }

/-- Scheduler step: the chosen thread runs one atomic step; if it has
already returned, the other thread runs instead. -/
def c8Step (c : C8Config) (owner_turn : Bool) : C8Config :=
  if owner_turn then
    if c.ow.ret = none then c8OwnerStep c else c8ThiefStep c
  else
    if c.th.ret = none then c8ThiefStep c else c8OwnerStep c

/-- Run `k` steps, taking turn choices from the bits of `sched`. -/
def c8Run : C8Config → Nat → Nat → C8Config
  | c, _, 0 => c
  | c, sched, k + 1 => c8Run (c8Step c (sched % 2 == 1)) (sched / 2) k

/-- One-element deque: `top = 0`, `bottom = 1`, the element 42 in slot 0. -/
def c8Init : C8Config :=
  { sh := { top := 0, bottom := 1, ring := fun i => if i = 0 then some 42 else none },
    ow := { pc := 0, b0 := 0, t := 0, task := none, ret := none },
    th := { pc := 0, t := 0, b := 0, task := none, ret := none } }

/-- Both calls have returned and exactly one of them got the element; the
other got none. -/
def c8ExactlyOne (c : C8Config) : Bool :=
  match c.ow.ret, c.th.ret with
  | some o, some t => (o = some 42 && t = none) || (o = none && t = some 42)
  | _, _ => false

/-- Exhaustive exploration of the schedule tree: at every step both turn
choices are taken, so `c8Explore c k = true` certifies the outcome check
for all `2 ^ k` turn sequences. -/
def c8Explore : C8Config → Nat → Bool
  | c, 0 => c8ExactlyOne c
  | c, k + 1 => c8Explore (c8Step c true) k && c8Explore (c8Step c false) k

theorem c8Explore_sound : ∀ (k : Nat) (c : C8Config), c8Explore c k = true →
    ∀ sched : Nat, c8ExactlyOne (c8Run c sched k) = true := by
  intro k
  induction k with
  | zero => intro c h sched; exact h
  | succ k ih =>
    intro c h sched
    have h' : c8Explore (c8Step c true) k = true ∧
        c8Explore (c8Step c false) k = true := by
      simp only [c8Explore, Bool.and_eq_true] at h
      exact h
    simp only [c8Run]
    cases hb : sched % 2 == 1
    · exact ih (c8Step c false) h'.2 (sched / 2)
    · exact ih (c8Step c true) h'.1 (sched / 2)

/-- C8: on a deque holding exactly one element, a concurrent owner
`pop_bottom` and thief `steal_top` deliver the element to exactly one of
the two callers — never both, never neither — over every interleaving of
their atomic steps (13 steps always suffice: the owner takes at most 7
and the thief at most 5, and finished threads' turns are no-ops). -/
theorem deque_one_element_race_exactly_one :
    ∀ sched : Nat, c8ExactlyOne (c8Run c8Init sched 13) = true :=
  c8Explore_sound 13 c8Init (by decide)
